import Mathlib

/-!
# Verification of the `oapi2proto` translation engine

Shallow embedding of `cmd/oapi2proto/main.go`: an OpenAPI-v3
`components.schemas` registry is translated into proto3 message/enum
declarations.  Every definition below mirrors a function of the Go source
(line numbers cite `main.go`).  Strings are modelled by Lean `String`
(`List Char` underneath); this matches the Go code on ASCII data, and the
character-level functions (`Char.toUpper`, the code-point range tests) agree
with Go's `strings.ToUpper`/character comparisons exactly on ASCII input.

Modelling conventions:
* Go maps (`map[string]*Schema`, the visited set) are modelled as
  association lists / string lists; Go nil-vs-empty distinctions for slices
  and maps are collapsed to `[]` (the parser produces nil for absent
  fields, which is what every claim exercises).
* Go map iteration order is unspecified; wherever the source ranges over a
  map whose order can reach the output (the top-level
  `for name := range doc.Components.Schemas`), the embedding takes the
  enumeration order as an explicit parameter, so one Lean evaluation
  corresponds to one possible Go execution.
* The emitter's `strings.Builder` is modelled as a list of events `Ev`, one
  event per `WriteString`-group of the source, together with `render`
  mapping each event to the exact text the Go code writes; the produced
  text is the concatenation of the rendered events.
* The Go recursion `emitSchema → emitMessage → emitSchema` does not
  terminate on cyclic schema registries, so the embedding threads an
  explicit fuel counter and returns `none` when the fuel is exhausted;
  every terminating Go run is reproduced by every sufficiently large fuel.
-/

/-- `Schema` mirrors the Go struct `Schema` (main.go lines 23-37): one
OpenAPI schema node with `$ref`, scalar type/format, enum literals,
properties, array items, composition keywords, `required`, `nullable`,
`additionalProperties` and `description`. -/
structure Schema where
  ref : String
  type : String
  format : String
  enum : List String
  properties : List (String × Schema)
  items : Option Schema
  oneOf : List Schema
  allOf : List Schema
  anyOf : List Schema
  required : List String
  nullable : Bool
  addlProps : Option Schema
  description : String

/-- The zero value of the Go `Schema` struct (all fields absent). -/
def emptySchema : Schema :=
  ⟨"", "", "", [], [], none, [], [], [], [], false, none, ""⟩

instance : Inhabited Schema := ⟨emptySchema⟩

/-- The registry `doc.Components.Schemas`: schema name to root node. -/
abbrev Registry := List (String × Schema)

/-- Run configuration consumed by the generation context
(main.go lines 86, 100-106): `-use-optional`, `-anyof`, `-sort`. -/
structure Cfg where
  useOptional : Bool
  anyOfMode : String
  sortFields : Bool

/-! ## Naming normalizer (main.go lines 360-434) -/

/-- `nonAlnumReplace` (main.go lines 369-372): replace `-`, `.` and space
by `_`. -/
def nonAlnumReplaceL (s : List Char) : List Char :=
  s.map (fun c => if c = '-' ∨ c = '.' ∨ c = ' ' then '_' else c)

/-- `strings.Split(s, "_")` on character lists: split at every underscore
(`n` separators produce `n+1` parts, possibly empty). -/
def splitU : List Char → List (List Char)
  | [] => [[]]
  | c :: r =>
    match splitU r with
    | [] => [[]]
    | p :: ps => if c = '_' then [] :: p :: ps else (c :: p) :: ps

/-- `isAllUpper` (main.go lines 405-412): no character in `a`..`z`. -/
def isAllUpper (p : List Char) : Bool :=
  p.all (fun c => !(97 ≤ c.toNat && c.toNat ≤ 122))

/-- One iteration of the `upperCamel` loop body (main.go lines 386-401):
empty parts are kept, all-caps parts of length > 1 are kept, otherwise the
first character is upper-cased (`strings.ToUpper` restricted to ASCII is
`Char.toUpper`). -/
def procPart (p : List Char) : List Char :=
  if p = [] then p
  else if isAllUpper p ∧ 1 < p.length then p
  else if p.length = 1 then p.map Char.toUpper
  else
    match p with
    | [] => []
    | c :: rest => Char.toUpper c :: rest

/-- `upperCamel` (main.go lines 381-403) on character lists. -/
def upperCamelL (s : List Char) : List Char :=
  if s = [] then []
  else ((splitU s).map procPart).flatten

/-- `normalizeMessage` (main.go lines 360-363). -/
def normalizeMessage (name : String) : String :=
  ⟨upperCamelL (nonAlnumReplaceL name.data)⟩

/-- ASCII whitespace recognised by `strings.TrimSpace` (Go
`unicode.IsSpace` restricted to ASCII). -/
def isSpaceCh (c : Char) : Bool :=
  c = ' ' || c = '\t' || c = '\n' || c = '\r' || c = '\u000b' || c = '\u000c'

/-- `strings.TrimSpace` on character lists. -/
def trimSpaceL (s : List Char) : List Char :=
  ((s.dropWhile isSpaceCh).reverse.dropWhile isSpaceCh).reverse

/-- The body of the `lowerSnake` loop (main.go lines 415-429): the flag
records whether we are past the first character (`i > 0`). -/
def lowerSnakeCore : List Char → Bool → List Char
  | [], _ => []
  | c :: r, past =>
    (if 65 ≤ c.toNat ∧ c.toNat ≤ 90 then
      (if past then ['_'] else []) ++ [Char.ofNat (c.toNat + 32)]
    else if (97 ≤ c.toNat ∧ c.toNat ≤ 122) ∨ (48 ≤ c.toNat ∧ c.toNat ≤ 57) then
      [c]
    else
      ['_']) ++ lowerSnakeCore r true

/-- `strings.Trim(s, "_")`. -/
def trimUnderscoreL (s : List Char) : List Char :=
  ((s.dropWhile (· = '_')).reverse.dropWhile (· = '_')).reverse

/-- `lowerSnake` (main.go lines 413-431). -/
def lowerSnakeL (s : List Char) : List Char :=
  trimUnderscoreL (lowerSnakeCore (trimSpaceL s) false)

/-- `normalizeField` (main.go lines 364-367). -/
def normalizeField (name : String) : String :=
  ⟨lowerSnakeL (nonAlnumReplaceL name.data)⟩

/-- `toEnumValue` (main.go lines 374-379): upper-case, then replace `-`
and space with `_`. -/
def toEnumValue (s : String) : String :=
  ⟨(s.data.map Char.toUpper).map (fun c => if c = '-' ∨ c = ' ' then '_' else c)⟩

/-- `strings.ToUpper` on an ASCII string (used on the normalized enum
name, main.go lines 130-132). -/
def upperAscii (s : String) : String :=
  ⟨s.data.map Char.toUpper⟩

/-- `oneline` (main.go line 434): newlines to spaces, then trim. -/
def oneline (s : String) : String :=
  ⟨trimSpaceL (s.data.map (fun c => if c = '\n' then ' ' else c))⟩

/-- `isScalar` (main.go lines 436-442). -/
def isScalar (t : String) : Bool :=
  t = "string" || t = "int32" || t = "int64" || t = "double" ||
  t = "float" || t = "bool" || t = "bytes"

/-! ## Reference resolver (main.go lines 342-358) -/

/-- `strings.Split(ref, "/")` on character lists. -/
def splitSlash : List Char → List (List Char)
  | [] => [[]]
  | c :: r =>
    match splitSlash r with
    | [] => [[]]
    | p :: ps => if c = '/' then [] :: p :: ps else (c :: p) :: ps

/-- `parts[len(parts)-1]` of the `/`-split of a `$ref` string
(main.go lines 350-352; the split of any string is non-empty, so the
`len(parts) > 0` guard of the source is always true). -/
def lastSegment (r : String) : String :=
  ⟨(splitSlash r.data).getLastD []⟩

/-- `resolveRef` (main.go lines 342-358): non-references are returned
unchanged; a reference is looked up in the registry by the last
`/`-segment of its `$ref` string, one hop only; a dangling reference is
returned unchanged.  (The Go nil-receiver guard on line 343 is
unrepresentable here: the embedding has no nil pointers.) -/
def resolveRef (reg : Registry) (s : Schema) : Schema :=
  if s.ref = "" then s
  else
    match reg.lookup (lastSegment s.ref) with
    | some tgt => tgt
    | none => s

/-- `scalarType` (main.go lines 321-340). -/
def scalarType (reg : Registry) (s : Schema) : String :=
  let s := resolveRef reg s
  if s.type = "string" then "string"
  else if s.type = "integer" then (if s.format = "int32" then "int32" else "int64")
  else if s.type = "number" then (if s.format = "float" then "float" else "double")
  else if s.type = "boolean" then "bool"
  else "string"

/-! ## Type mapper (main.go lines 272-319)

`fieldType` recurses through array elements and map values, and a `$ref`
cycle in the registry can make the Go function diverge, so the embedding
takes fuel.  The second component models the `[]any{name, schema}`
synthesis request (`nil` becomes `none`). -/

/-- `fieldType` (main.go lines 272-319). -/
def fieldType (reg : Registry) : Nat → String → Schema →
    Option (String × Option (String × Schema))
  | 0, _, _ => none
  | fuel + 1, name, s0 =>
    let s := resolveRef reg s0
    if !s.enum.isEmpty then
      some (normalizeMessage name, some (normalizeMessage name, s))
    else if s.type = "string" then
      if s.format = "byte" ∨ s.format = "binary" then some ("bytes", none)
      else some ("string", none)
    else if s.type = "integer" then
      if s.format = "int32" then some ("int32", none) else some ("int64", none)
    else if s.type = "number" then
      if s.format = "float" then some ("float", none) else some ("double", none)
    else if s.type = "boolean" then
      some ("bool", none)
    else if s.type = "array" then
      match s.items with
      | none => some ("repeated string", none)
      | some it => do
        let (et, nested) ← fieldType reg fuel (name ++ "_item") it
        match nested with
        | some (nm, sch) => some ("repeated " ++ nm, some (nm, sch))
        | none => some ("repeated " ++ et, none)
    else if s.type = "object" then
      if s.properties.isEmpty && s.addlProps.isSome then
        match s.addlProps with
        | none => some ("string", none)
        | some ap => do
          let (vt, nested) ← fieldType reg fuel (name ++ "_value") ap
          match nested with
          | some (nm, sch) => some ("map<string," ++ nm ++ ">", some (nm, sch))
          | none => some ("map<string," ++ vt ++ ">", none)
      else
        some (normalizeMessage name, some (normalizeMessage name, s))
    else if !s.oneOf.isEmpty || !s.allOf.isEmpty || !s.anyOf.isEmpty then
      some (normalizeMessage name, some (normalizeMessage name, s))
    else
      some ("string", none)

/-! ## Composition merger (main.go lines 140-149 and 262-270) -/

/-- Assignment `m[k] = v` on a Go map modelled as an association list:
replace the binding if the key is present, append it otherwise. -/
def mapInsert (m : List (String × Schema)) (k : String) (v : Schema) :
    List (String × Schema) :=
  if (m.lookup k).isSome then
    m.map (fun p => if p.1 = k then (k, v) else p)
  else
    m ++ [(k, v)]

/-- The property-copy loop of `mergeInto` (main.go lines 262-270): fold the
added schema's properties into the accumulator, overwriting same-named
keys. -/
def mergeIntoProps (base : List (String × Schema)) (add : List (String × Schema)) :
    List (String × Schema) :=
  add.foldl (fun b p => mapInsert b p.1 p.2) base

/-- The allOf merge of `emitMessage` (main.go lines 141-149): start from an
empty property map with the outer node's `required` list, fold every
(resolved) allOf branch in, then copy the node's own properties last.
Returns (merged properties, merged required list). -/
def mergeAllOf (reg : Registry) (s : Schema) :
    List (String × Schema) × List String :=
  let branchProps := s.allOf.foldl
    (fun acc part => mergeIntoProps acc (resolveRef reg part).properties) []
  (mergeIntoProps branchProps s.properties, s.required)

/-! ## Output model

One `Ev` per `WriteString` group of the emitter; `render` reproduces the
exact text each group writes. -/

/-- Output events of the emitter (main.go lines 108-260). -/
inductive Ev where
  /-- `message ⟨Name⟩ {` line (main.go line 139). -/
  | msgOpen (name : String)
  /-- `}` closing a message plus blank line (main.go line 255). -/
  | msgClose
  /-- one property field line, with optional `optional` qualifier and
  trailing description comment (main.go lines 183-187). -/
  | field (opt : Bool) (ptype fname : String) (num : Nat) (desc : String)
  /-- `map<string,⟨valType⟩> entries = 1;` line (main.go line 197). -/
  | mapEntries (valType : String)
  /-- `oneof ⟨group⟩ {` line (main.go lines 202 and 235). -/
  | oneofOpen (group : String)
  /-- one branch field line inside a oneof group (main.go lines 215, 248). -/
  | oneofField (ptype fname : String) (num : Nat)
  /-- `}` closing a oneof group (main.go lines 218 and 251). -/
  | oneofClose
  /-- `repeated ⟨t⟩ anyof_value = ⟨n⟩;` line (main.go line 232). -/
  | anyofRepeated (ptype : String) (num : Nat)
  /-- `enum ⟨Name⟩ {` line (main.go line 129). -/
  | enumOpen (name : String)
  /-- one enum member line (main.go lines 130-132). -/
  | enumMember (mname : String) (num : Nat)
  /-- `}` closing an enum plus blank line (main.go line 134). -/
  | enumClose
  /-- the promotion comment line (main.go line 123). -/
  | comment (text : String)
  /-- the one-line wrapper message for a top-level primitive
  (main.go line 124). -/
  | wrapper (name : String) (typ : String)
deriving DecidableEq, Repr

/-- The exact text each event's `WriteString` group produces. -/
def render : Ev → String
  | .msgOpen name => "message " ++ name ++ " \x7b\n"
  | .msgClose => "\x7d\n\n"
  | .field opt ptype fname num desc =>
    "  " ++ (if opt then "optional " else "") ++ ptype ++ " " ++ fname ++
      " = " ++ toString num ++ ";" ++
      (if desc = "" then "" else " // " ++ oneline desc) ++ "\n"
  | .mapEntries valType => "  map<string," ++ valType ++ "> entries = 1;\n"
  | .oneofOpen group => "  oneof " ++ group ++ " \x7b\n"
  | .oneofField ptype fname num =>
    "    " ++ ptype ++ " " ++ fname ++ " = " ++ toString num ++ ";\n"
  | .oneofClose => "  \x7d\n"
  | .anyofRepeated ptype num =>
    "  repeated " ++ ptype ++ " anyof_value = " ++ toString num ++
      "; // anyOf first schema repeated\n"
  | .enumOpen name => "enum " ++ name ++ " \x7b\n"
  | .enumMember mname num => "  " ++ mname ++ " = " ++ toString num ++ ";\n"
  | .enumClose => "\x7d\n\n"
  | .comment text => "// " ++ text ++ "\n"
  | .wrapper name typ => "message " ++ name ++ " \x7b " ++ typ ++ " value = 1; \x7d\n\n"

/-! ## Enum emitter (main.go lines 127-135) -/

/-- The member loop of `emitEnum` (main.go lines 131-133): `i`-th literal
becomes `⟨UPPER⟩_⟨toEnumValue v⟩ = i+1`. -/
def enumMembers (upperName : String) : List String → Nat → List Ev
  | [], _ => []
  | v :: rest, i =>
    Ev.enumMember (upperName ++ "_" ++ toEnumValue v) (i + 1) ::
      enumMembers upperName rest (i + 1)

/-- `emitEnum` (main.go lines 127-135). -/
def emitEnum (name : String) (s : Schema) : List Ev :=
  let enumName := normalizeMessage name
  Ev.enumOpen enumName ::
    Ev.enumMember (upperAscii enumName ++ "_UNSPECIFIED") 0 ::
    enumMembers (upperAscii enumName) s.enum 0 ++ [Ev.enumClose]

/-! ## Message/enum emitter (main.go lines 108-260)

The Go recursion is `emitSchema → emitMessage → emitSchema` (eagerly for a
map value, and through the deferred `toEmit` queue after the message body
closes); all three functions take the same fuel and pass its predecessor
downwards. -/

/-- The synthesis-request handling repeated for properties, oneOf
branches, anyOf-group branches and the anyOf-repeat field (main.go lines
169-178, 207-214, 224-231, 240-247): replace the mapped type by the
parent-prefixed flattened name and schedule the nested schema for deferred
emission unless that name is already visited. Returns the (possibly
replaced) field type and the updated queue. -/
def queueNested (visited : List String) (msgName : String)
    (toEmit : List (String × Schema)) (pt0 : String)
    (nested : Option (String × Schema)) : String × List (String × Schema) :=
  match nested with
  | some (base, sch) =>
    let flatName := normalizeMessage (msgName ++ "_" ++ base)
    (flatName,
      if visited.contains flatName then toEmit
      else toEmit ++ [(flatName, sch)])
  | none => (pt0, toEmit)

/-- The property loop of `emitMessage` (main.go lines 166-189): walks the
(possibly sorted) property names, maps each type, handles a synthesis
request through `queueNested`, and emits one field line per property with
the running field number. Returns (events, queue, next field number). -/
def propsLoop (reg : Registry) (fuel : Nat) (cfg : Cfg) (visited : List String)
    (msgName : String) (props : List (String × Schema)) :
    List String → Nat → List (String × Schema) →
    Option (List Ev × List (String × Schema) × Nat)
  | [], fieldNum, toEmit => some ([], toEmit, fieldNum)
  | prop :: rest, fieldNum, toEmit =>
    let ps := (props.lookup prop).getD emptySchema
    match fieldType reg fuel prop ps with
    | none => none
    | some (ptype0, nested) =>
      let q := queueNested visited msgName toEmit ptype0 nested
      let opt := ps.nullable && cfg.useOptional && isScalar q.1
      match propsLoop reg fuel cfg visited msgName props rest (fieldNum + 1) q.2 with
      | none => none
      | some (evs, te, fn) =>
        some (Ev.field opt q.1 (normalizeField prop) fieldNum ps.description :: evs,
          te, fn)

/-- The oneOf branch loop (main.go lines 204-217) and the anyOf group
branch loop (main.go lines 237-250); the two loops are textually identical
in the source up to the field-name stem (`choice_` vs `alt_`), which is the
`stem` parameter. `idx` is the 1-based branch index. -/
def branchLoop (reg : Registry) (fuel : Nat) (visited : List String)
    (msgName : String) (stem : String) :
    List Schema → Nat → Nat → List (String × Schema) →
    Option (List Ev × List (String × Schema) × Nat)
  | [], _, fieldNum, toEmit => some ([], toEmit, fieldNum)
  | branch :: rest, idx, fieldNum, toEmit =>
    let fname := stem ++ toString idx
    match fieldType reg fuel fname branch with
    | none => none
    | some (pt0, nested) =>
      let q := queueNested visited msgName toEmit pt0 nested
      match branchLoop reg fuel visited msgName stem rest (idx + 1) (fieldNum + 1) q.2 with
      | none => none
      | some (evs, te, fn) =>
        some (Ev.oneofField q.1 fname fieldNum :: evs, te, fn)

/-- The oneOf block of `emitMessage` (main.go lines 201-219): if branches
are present, wrap the branch loop's fields in a `oneof one_of { ... }`
group. -/
def oneofPart (reg : Registry) (fuel : Nat) (visited : List String)
    (msgName : String) (oneOf : List Schema) (fieldNum : Nat)
    (toEmit : List (String × Schema)) :
    Option (List Ev × List (String × Schema) × Nat) :=
  if !oneOf.isEmpty then
    match branchLoop reg fuel visited msgName "choice_" oneOf 1 fieldNum toEmit with
    | none => none
    | some (evs, te, fn) => some (Ev.oneofOpen "one_of" :: evs ++ [Ev.oneofClose], te, fn)
  else some ([], toEmit, fieldNum)

/-- The anyOf handling of `emitMessage` (main.go lines 221-253): in
`repeat` mode only the first branch is mapped and emitted as one repeated
field (all later branches are dropped); otherwise the branches form an
`any_of` group like oneOf. -/
def anyofPart (cfg : Cfg) (reg : Registry) (fuel : Nat) (visited : List String)
    (msgName : String) (anyOf : List Schema) (fieldNum : Nat)
    (toEmit : List (String × Schema)) :
    Option (List Ev × List (String × Schema) × Nat) :=
  if !anyOf.isEmpty then
    if cfg.anyOfMode = "repeat" then
      match fieldType reg fuel "anyof_value" (anyOf.headD emptySchema) with
      | none => none
      | some (pt0, nested) =>
        let q := queueNested visited msgName toEmit pt0 nested
        some ([Ev.anyofRepeated q.1 fieldNum], q.2, fieldNum + 1)
    else
      match branchLoop reg fuel visited msgName "alt_" anyOf 1 fieldNum toEmit with
      | none => none
      | some (evs, te, fn) => some (Ev.oneofOpen "any_of" :: evs ++ [Ev.oneofClose], te, fn)
  else some ([], toEmit, fieldNum)

mutual

/-- `emitSchema` (main.go lines 108-125): skip if visited, mark visited,
resolve one hop, then dispatch to enum, message, or primitive-wrapper
emission.  Returns the updated visited set and the emitted events, or
`none` if the fuel ran out. -/
def emitSchema (cfg : Cfg) (reg : Registry) :
    Nat → List String → String → Schema → Option (List String × List Ev)
  | 0, _, _, _ => none
  | fuel + 1, visited, name, s =>
    if visited.contains name then some (visited, [])
    else
      let visited := name :: visited
      let resolved := resolveRef reg s
      if !resolved.enum.isEmpty then
        some (visited, emitEnum name resolved)
      else if resolved.type = "object" || !resolved.properties.isEmpty ||
          !resolved.allOf.isEmpty || !resolved.oneOf.isEmpty ||
          !resolved.anyOf.isEmpty || resolved.addlProps.isSome then
        emitMessage cfg reg fuel visited name resolved
      else
        some (visited,
          [Ev.comment ("Primitive schema " ++ name ++ " promoted to wrapper message"),
           Ev.wrapper (normalizeMessage name) (scalarType reg resolved)])

/-- The map-type step of `emitMessage` (main.go lines 192-198): on a pure
map shape (additional properties present, no merged properties) the value
type is mapped, a synthesized value type is emitted *eagerly, into the
still-open message body*, and the single `entries` field is written with
the literal number 1. -/
def mapPart (cfg : Cfg) (reg : Registry) :
    Nat → List String → Schema → List (String × Schema) →
    Option (List Ev × List String)
  | 0, _, _, _ => none
  | fuel + 1, visited, s, mergedProps =>
    match s.addlProps with
    | some ap =>
      if mergedProps.isEmpty then
        match fieldType reg (fuel + 1) "value" ap with
        | none => none
        | some (valType, nested) =>
          match nested with
          | some (nm, sch) =>
            match emitSchema cfg reg fuel visited nm sch with
            | none => none
            | some (v', innerEvs) => some (innerEvs ++ [Ev.mapEntries valType], v')
          | none => some ([Ev.mapEntries valType], visited)
      else some ([], visited)
    | none => some ([], visited)

/-- `emitMessage` (main.go lines 137-260): merge allOf, emit the property
fields (names sorted when `-sort` is set), then the map-entries step, then
the oneOf group, then the anyOf group or repeated field, close the body,
and drain the deferred queue. -/
def emitMessage (cfg : Cfg) (reg : Registry) :
    Nat → List String → String → Schema → Option (List String × List Ev)
  | 0, _, _, _ => none
  | fuel + 1, visited, name, s =>
    let msgName := normalizeMessage name
    let mergedProps := (mergeAllOf reg s).1
    let propNames0 := mergedProps.map Prod.fst
    let propNames :=
      if cfg.sortFields then List.insertionSort (· ≤ ·) propNames0 else propNames0
    match propsLoop reg fuel cfg visited msgName mergedProps propNames 1 [] with
    | none => none
    | some (propEvs, toEmit1, fn1) =>
      match mapPart cfg reg fuel visited s mergedProps with
      | none => none
      | some (mapEvs, visited1) =>
        match oneofPart reg fuel visited1 msgName s.oneOf fn1 toEmit1 with
        | none => none
        | some (oneofEvs, toEmit2, fn2) =>
          match anyofPart cfg reg fuel visited1 msgName s.anyOf fn2 toEmit2 with
          | none => none
          | some (anyofEvs, toEmit3, _fn3) =>
            -- close body, then emit deferred nested schemas (lines 255-259)
            match drainQueue cfg reg fuel visited1 toEmit3 with
            | none => none
            | some (visited2, deferEvs) =>
              some (visited2,
                Ev.msgOpen msgName :: propEvs ++ mapEvs ++ oneofEvs ++ anyofEvs ++
                  Ev.msgClose :: deferEvs)

/-- The deferred-queue drain loop (main.go lines 257-259). -/
def drainQueue (cfg : Cfg) (reg : Registry) :
    Nat → List String → List (String × Schema) → Option (List String × List Ev)
  | 0, _, _ => none
  | _ + 1, visited, [] => some (visited, [])
  | fuel + 1, visited, (nm, sch) :: rest =>
    match emitSchema cfg reg fuel visited nm sch with
    | none => none
    | some (v1, e1) =>
      match drainQueue cfg reg fuel v1 rest with
      | none => none
      | some (v2, e2) => some (v2, e1 ++ e2)

end

/-- The top-level schema loop of `main` (main.go lines 88-90): emit every
name in order, looking each up in the registry (the names come from the
registry, so the lookup always succeeds in a real run; a missing name
degrades to the zero schema exactly as a Go nil pointer does through
`resolveRef`'s nil guard). -/
def runLoop (cfg : Cfg) (reg : Registry) (fuel : Nat) :
    List String → List String → Option (List String × List Ev)
  | _, [] => some ([], [])
  | visited, nm :: rest =>
    match emitSchema cfg reg fuel visited nm ((reg.lookup nm).getD emptySchema) with
    | none => none
    | some (v1, e1) =>
      match runLoop cfg reg fuel v1 rest with
      | none => none
      | some (v2, e2) => some (v2, e1 ++ e2)

/-- One generation run (main.go lines 77-90) minus the constant header
lines: `order` is the enumeration order in which the Go `range` over the
registry map yields the schema names (Go fixes no such order); with
`-sort` the names are sorted first. -/
def runGen (cfg : Cfg) (reg : Registry) (fuel : Nat) (order : List String) :
    Option (List Ev) :=
  let names := if cfg.sortFields then List.insertionSort (· ≤ ·) order else order
  (runLoop cfg reg fuel [] names).map Prod.snd

/-- The generated output text of one run (concatenation of the rendered
events; the three constant header lines of main.go lines 73-75 are
omitted, they do not depend on the registry). -/
def outputText (cfg : Cfg) (reg : Registry) (fuel : Nat) (order : List String) :
    Option String :=
  (runGen cfg reg fuel order).map (fun evs => String.join (evs.map render))

/-! ## Association-list lookup lemmas for the merger -/

theorem lookup_cons_pair (a pk : String) (pv : Schema) (l : List (String × Schema)) :
    List.lookup a ((pk, pv) :: l) = if a = pk then some pv else List.lookup a l := by
  by_cases h : a = pk
  · subst h
    simp [List.lookup]
  · have hb : (a == pk) = false := by simpa using h
    simp [List.lookup, hb, h]

theorem lookup_mapInsert_self (m : List (String × Schema)) (k : String) (v : Schema) :
    (mapInsert m k v).lookup k = some v := by
  unfold mapInsert
  split
  · rename_i h
    induction m with
    | nil => simp at h
    | cons p rest ih =>
      obtain ⟨pk, pv⟩ := p
      rw [lookup_cons_pair] at h
      simp only [List.map_cons]
      by_cases hk : pk = k
      · subst hk
        rw [show (if (pk, pv).1 = pk then (pk, v) else (pk, pv)) = (pk, v) by simp,
          lookup_cons_pair, if_pos rfl]
      · rw [show (if (pk, pv).1 = k then (k, v) else (pk, pv)) = (pk, pv) by simp [hk],
          lookup_cons_pair, if_neg (Ne.symm hk)]
        rw [if_neg (Ne.symm hk)] at h
        exact ih h
  · rename_i h
    induction m with
    | nil => simp [lookup_cons_pair]
    | cons p rest ih =>
      obtain ⟨pk, pv⟩ := p
      by_cases hk : k = pk
      · exfalso
        apply h
        rw [lookup_cons_pair, if_pos hk]
        simp
      · simp only [List.cons_append]
        rw [lookup_cons_pair, if_neg hk]
        apply ih
        intro hs
        apply h
        rw [lookup_cons_pair, if_neg hk]
        exact hs

theorem lookup_mapInsert_ne (m : List (String × Schema)) (k k' : String) (v : Schema)
    (h : k' ≠ k) : (mapInsert m k v).lookup k' = m.lookup k' := by
  unfold mapInsert
  split
  all_goals rename_i hsome
  all_goals clear hsome
  · induction m with
    | nil => simp
    | cons p rest ih =>
      obtain ⟨pk, pv⟩ := p
      simp only [List.map_cons]
      by_cases hk : pk = k
      · subst hk
        rw [show (if (pk, pv).1 = pk then (pk, v) else (pk, pv)) = (pk, v) by simp,
          lookup_cons_pair, lookup_cons_pair, if_neg h, if_neg h]
        exact ih
      · rw [show (if (pk, pv).1 = k then (k, v) else (pk, pv)) = (pk, pv) by simp [hk],
          lookup_cons_pair, lookup_cons_pair]
        split
        · rfl
        · exact ih
  · induction m with
    | nil => simp [lookup_cons_pair, if_neg h]
    | cons p rest ih =>
      obtain ⟨pk, pv⟩ := p
      simp only [List.cons_append]
      rw [lookup_cons_pair, lookup_cons_pair]
      split
      · rfl
      · exact ih

theorem lookup_mergeIntoProps_not_mem (base add : List (String × Schema)) (k : String)
    (h : k ∉ add.map Prod.fst) :
    (mergeIntoProps base add).lookup k = base.lookup k := by
  induction add generalizing base with
  | nil => rfl
  | cons p rest ih =>
    simp only [List.map_cons, List.mem_cons] at h
    push_neg at h
    simp only [mergeIntoProps, List.foldl_cons]
    rw [show (List.foldl (fun b p => mapInsert b p.1 p.2) (mapInsert base p.1 p.2) rest) =
      mergeIntoProps (mapInsert base p.1 p.2) rest from rfl]
    rw [ih _ h.2, lookup_mapInsert_ne _ _ _ _ h.1]

theorem lookup_mergeIntoProps_of_lookup (base add : List (String × Schema)) (k : String)
    (v : Schema) (hnd : (add.map Prod.fst).Nodup) (h : add.lookup k = some v) :
    (mergeIntoProps base add).lookup k = some v := by
  induction add generalizing base with
  | nil => simp [List.lookup] at h
  | cons p rest ih =>
    obtain ⟨pk, pv⟩ := p
    simp only [List.map_cons, List.nodup_cons] at hnd
    rw [lookup_cons_pair] at h
    simp only [mergeIntoProps, List.foldl_cons]
    rw [show (List.foldl (fun b p => mapInsert b p.1 p.2) (mapInsert base (pk, pv).1 (pk, pv).2) rest) =
      mergeIntoProps (mapInsert base pk pv) rest from rfl]
    by_cases hk : k = pk
    · rw [if_pos hk] at h
      rw [lookup_mergeIntoProps_not_mem _ _ _ (by rw [hk]; exact hnd.1), hk,
        lookup_mapInsert_self]
      rw [h]
    · rw [if_neg hk] at h
      exact ih (mapInsert base pk pv) hnd.2 h

/-! ## Shared concrete fixtures -/

/-- A plain string scalar node. -/
def strSchema : Schema := { emptySchema with type := "string" }

/-- A plain integer scalar node. -/
def intSchema : Schema := { emptySchema with type := "integer" }

/-- A local `$ref` node pointing at schema `n`. -/
def refTo (n : String) : Schema :=
  { emptySchema with ref := "#/components/schemas/" ++ n }

/-- The reference chain of the spec: `A` is a Reference to `B`, `B` is a
Reference to `C`, `C` is a concrete scalar node. -/
def chainReg : Registry := [("A", refTo "B"), ("B", refTo "C"), ("C", strSchema)]

/-- Claim C6: reference resolution is single-hop — `resolveRef` returns
non-Reference nodes unchanged, and for a Reference whose (last-segment)
target name is registered it returns that registry entry's node verbatim,
with no further resolution of a nested Reference. -/
theorem claim_C6_resolve_single_hop :
    (∀ (reg : Registry) (s : Schema), s.ref = "" → resolveRef reg s = s) ∧
    (∀ (reg : Registry) (s t : Schema), s.ref ≠ "" →
      reg.lookup (lastSegment s.ref) = some t → resolveRef reg s = t) := by
  constructor
  · intro reg s h
    simp [resolveRef, h]
  · intro reg s t h hl
    simp [resolveRef, h, hl]

/-- Witness for C6, on the spec's chain `Reference(A→B), Reference(B→C)`:
resolving the node `Reference(→B)` yields the `Reference(→C)` node itself
(single hop), which is not `C`'s concrete node. -/
theorem claim_C6_resolve_single_hop_witness :
    resolveRef chainReg (refTo "B") = refTo "C" ∧ refTo "C" ≠ strSchema := by
  constructor
  · exact claim_C6_resolve_single_hop.2 chainReg (refTo "B") (refTo "C")
      (by decide) rfl
  · intro h
    exact absurd (congrArg Schema.ref h) (by decide)

/-- Claim C10: `resolveRef` matches a `$ref` solely by the last
`/`-separated segment of the reference string: if the final segment is a
registered name the reference resolves to that entry (whatever the rest of
the `$ref` looks like), and only a reference whose final segment is
unregistered is left unresolved. -/
theorem claim_C10_last_segment_matching :
    ∀ (reg : Registry) (s t : Schema), s.ref ≠ "" →
      (reg.lookup (lastSegment s.ref) = some t → resolveRef reg s = t) ∧
      (reg.lookup (lastSegment s.ref) = none → resolveRef reg s = s) := by
  intro reg s t h
  constructor
  · intro hl
    simp [resolveRef, h, hl]
  · intro hl
    simp [resolveRef, h, hl]

/-- Witness for C10: a non-local URL-shaped ref and a bare-name ref whose
final segment is the registered name `C` both resolve to `C`'s node, and a
well-formed local ref to an unregistered name stays unresolved. -/
theorem claim_C10_last_segment_matching_witness :
    resolveRef chainReg { emptySchema with ref := "http://example.com/schemas/C" } = strSchema ∧
    resolveRef chainReg { emptySchema with ref := "C" } = strSchema ∧
    resolveRef chainReg { emptySchema with ref := "#/components/schemas/Missing" } =
      { emptySchema with ref := "#/components/schemas/Missing" } := by
  refine ⟨?_, ?_, ?_⟩
  · exact (claim_C10_last_segment_matching chainReg _ strSchema (by decide)).1 rfl
  · exact (claim_C10_last_segment_matching chainReg _ strSchema (by decide)).1 rfl
  · exact (claim_C10_last_segment_matching chainReg _ emptySchema (by decide)).2 rfl

/-- A node that is nothing but a `$ref` to `r` (the shape a pure reference
parses to). -/
def bareRef (r : String) : Schema :=
  ⟨r, "", "", [], [], none, [], [], [], [], false, none, ""⟩

/-- Claim C8: a dangling reference (bare `$ref` node whose final segment is
not registered) is non-fatal: `resolveRef` returns the node unchanged, and
`fieldType` on that node falls through every case to the default scalar
`"string"` with no synthesis request and no error. -/
theorem claim_C8_dangling_ref :
    ∀ (reg : Registry) (fuel : Nat) (fname r : String), r ≠ "" →
      reg.lookup (lastSegment r) = none →
      resolveRef reg (bareRef r) = bareRef r ∧
      fieldType reg (fuel + 1) fname (bareRef r) = some ("string", none) := by
  intro reg fuel fname r hr hl
  have hres : resolveRef reg (bareRef r) = bareRef r := by
    simp [resolveRef, bareRef, hr, hl]
  refine ⟨hres, ?_⟩
  simp only [fieldType]
  rw [hres]
  simp [bareRef]

/-- Witness for C8 at a concrete dangling reference. -/
theorem claim_C8_dangling_ref_witness :
    resolveRef chainReg (bareRef "#/components/schemas/Gone") =
      bareRef "#/components/schemas/Gone" ∧
    fieldType chainReg 7 "f" (bareRef "#/components/schemas/Gone") =
      some ("string", none) :=
  claim_C8_dangling_ref chainReg 6 "f" "#/components/schemas/Gone" (by decide) rfl

/-! ## C7: allOf merging -/

/-- The spec's example schema: own property `status : string`, an allOf
branch also declaring `status : integer`. -/
def ownStatusSchema : Schema :=
  { emptySchema with
    type := "object"
    properties := [("status", strSchema)]
    allOf := [({ emptySchema with properties := [("status", intSchema)] } : Schema)]
    required := ["status"] }

/-- Claim C7: in the allOf merge, a property declared both in a branch and
directly on the node gets the node's own declaration (own properties are
copied last and overwrite), and the required list is taken only from the
outer node; concretely, `status: string` own vs `status: integer` in a
branch emits a `string` field. -/
theorem claim_C7_allOf_own_wins :
    (∀ (reg : Registry) (s : Schema) (k : String) (v : Schema),
      (s.properties.map Prod.fst).Nodup → s.properties.lookup k = some v →
      (mergeAllOf reg s).1.lookup k = some v ∧ (mergeAllOf reg s).2 = s.required) ∧
    emitSchema ⟨true, "oneof", false⟩ [] 10 [] "Own" ownStatusSchema =
      some (["Own"],
        [Ev.msgOpen "Own", Ev.field false "string" "status" 1 "", Ev.msgClose]) := by
  constructor
  · intro reg s k v hnd h
    exact ⟨lookup_mergeIntoProps_of_lookup _ _ _ _ hnd h, rfl⟩
  · decide

/-- Witness for C7 at the spec's own-vs-branch `status` example. -/
theorem claim_C7_allOf_own_wins_witness :
    (mergeAllOf [] ownStatusSchema).1.lookup "status" = some strSchema ∧
    (mergeAllOf [] ownStatusSchema).2 = ["status"] :=
  claim_C7_allOf_own_wins.1 [] ownStatusSchema "status" strSchema
    (by decide) rfl

/-! ## C5: output determinism -/

/-- Two distinct scalar schemas under two names, for probing emission
order. -/
def regAB : Registry := [("A", strSchema), ("B", intSchema)]

/-- Counterexample to C5 as stated: with sorting disabled the output is
not a function of registry and flags alone — two legal Go executions
(differing only in the unspecified map iteration order) produce different
output texts, so the output is neither "fully determined" nor in
registry-declaration order. -/
theorem claim_C5_cex :
    outputText ⟨true, "oneof", false⟩ regAB 10 ["A", "B"] ≠
      outputText ⟨true, "oneof", false⟩ regAB 10 ["B", "A"] := by
  decide

/-- Claim C5 as amended: with sorting enabled, the generated output text is
fully determined by the registry and flags — it is invariant under the
(unspecified) order in which the registry map is enumerated, because the
names are sorted alphabetically first.  (With sorting disabled the output
follows the enumeration order, which Go does not fix.) -/
theorem claim_C5_sorted_deterministic :
    ∀ (cfg : Cfg) (reg : Registry) (fuel : Nat) (order1 order2 : List String),
      cfg.sortFields = true → order1.Perm order2 →
      outputText cfg reg fuel order1 = outputText cfg reg fuel order2 := by
  intro cfg reg fuel order1 order2 hs hp
  have hsorted : List.insertionSort (· ≤ ·) order1 = List.insertionSort (· ≤ ·) order2 := by
    apply List.eq_of_perm_of_sorted (r := (· ≤ ·))
    · exact (List.perm_insertionSort _ order1).trans
        (hp.trans (List.perm_insertionSort _ order2).symm)
    · exact List.sorted_insertionSort _ order1
    · exact List.sorted_insertionSort _ order2
  unfold outputText runGen
  rw [hs]
  simp only [if_pos]
  rw [hsorted]

/-- Witness for the amended C5 at a concrete registry and two enumeration
orders. -/
theorem claim_C5_sorted_deterministic_witness :
    outputText ⟨true, "oneof", true⟩ regAB 10 ["A", "B"] =
      outputText ⟨true, "oneof", true⟩ regAB 10 ["B", "A"] :=
  claim_C5_sorted_deterministic ⟨true, "oneof", true⟩ regAB 10 ["A", "B"] ["B", "A"]
    rfl (by decide)

/-! ## C9: idempotence of the type-name normalizer -/

theorem toNat_ofNat_valid (n : Nat) (h : n.isValidChar) : (Char.ofNat n).toNat = n := by
  simp [Char.ofNat, h, Char.ofNatAux, Char.toNat, UInt32.toNat]

theorem ne_of_toNat_ne {a b : Char} (h : a.toNat ≠ b.toNat) : a ≠ b :=
  fun hab => h (congrArg Char.toNat hab)

theorem toUpper_of_not_lower (c : Char) (h : ¬(97 ≤ c.toNat ∧ c.toNat ≤ 122)) :
    Char.toUpper c = c := by
  simp only [Char.toUpper]
  split
  · rename_i hg
    exact absurd ⟨hg.1, hg.2⟩ h
  · rfl

theorem toUpper_eq_or_bound (c : Char) :
    Char.toUpper c = c ∨
      (65 ≤ (Char.toUpper c).toNat ∧ (Char.toUpper c).toNat ≤ 90) := by
  simp only [Char.toUpper]
  split
  · rename_i hg
    right
    rw [toNat_ofNat_valid _ (Or.inl (by omega))]
    omega
  · left
    rfl

theorem toUpper_not_lower (c : Char) :
    ¬(97 ≤ (Char.toUpper c).toNat ∧ (Char.toUpper c).toNat ≤ 122) := by
  simp only [Char.toUpper]
  split
  · rename_i hg
    rw [toNat_ofNat_valid _ (Or.inl (by omega))]
    omega
  · rename_i hg
    exact fun hh => hg ⟨hh.1, hh.2⟩

theorem splitU_ne_nil (s : List Char) : splitU s ≠ [] := by
  cases s with
  | nil => simp [splitU]
  | cons c r =>
    simp only [splitU]
    cases splitU r with
    | nil => simp
    | cons p ps =>
      by_cases hc : c = '_' <;> simp [hc]

/-- Characters of the parts of `splitU s` are characters of `s`. -/
theorem mem_splitU_subset {P : Char → Prop} :
    ∀ (s : List Char), (∀ c ∈ s, P c) →
      ∀ p ∈ splitU s, ∀ c ∈ p, P c := by
  intro s
  induction s with
  | nil =>
    intro _ p hp c hc
    simp [splitU] at hp
    subst hp
    simp at hc
  | cons a r ih =>
    intro hs p hp c hc
    have har : ∀ c ∈ r, P c := fun c hc => hs c (List.mem_cons_of_mem _ hc)
    simp only [splitU] at hp
    cases hq : splitU r with
    | nil => exact absurd hq (splitU_ne_nil r)
    | cons q qs =>
      rw [hq] at hp
      have hp' : p ∈ (if a = '_' then [] :: q :: qs else (a :: q) :: qs) := hp
      by_cases ha : a = '_'
      · rw [if_pos ha] at hp'
        rcases List.mem_cons.mp hp' with h1 | h2
        · subst h1
          simp at hc
        · exact ih har p (hq ▸ h2) c hc
      · rw [if_neg ha] at hp'
        rcases List.mem_cons.mp hp' with h1 | h2
        · subst h1
          rcases List.mem_cons.mp hc with h3 | h4
          · subst h3
            exact hs c (List.mem_cons_self _ _)
          · exact ih har q (hq ▸ List.mem_cons_self q qs) c h4
        · exact ih har p (hq ▸ List.mem_cons_of_mem _ h2) c hc

/-- No part of `splitU s` contains an underscore. -/
theorem not_underscore_mem_splitU :
    ∀ (s : List Char), ∀ p ∈ splitU s, '_' ∉ p := by
  intro s
  induction s with
  | nil =>
    intro p hp
    simp [splitU] at hp
    subst hp
    simp
  | cons a r ih =>
    intro p hp
    simp only [splitU] at hp
    cases hq : splitU r with
    | nil => exact absurd hq (splitU_ne_nil r)
    | cons q qs =>
      rw [hq] at hp
      have hp' : p ∈ (if a = '_' then [] :: q :: qs else (a :: q) :: qs) := hp
      by_cases ha : a = '_'
      · rw [if_pos ha] at hp'
        rcases List.mem_cons.mp hp' with h1 | h2
        · subst h1
          simp
        · exact ih p (hq ▸ h2)
      · rw [if_neg ha] at hp'
        rcases List.mem_cons.mp hp' with h1 | h2
        · subst h1
          intro hmem
          rcases List.mem_cons.mp hmem with h3 | h4
          · exact ha h3.symm
          · exact ih q (hq ▸ List.mem_cons_self q qs) h4
        · exact ih p (hq ▸ List.mem_cons_of_mem _ h2)

/-- On an underscore-free string the split is trivial. -/
theorem splitU_no_underscore :
    ∀ (s : List Char), '_' ∉ s → splitU s = [s] := by
  intro s
  induction s with
  | nil => intro _; rfl
  | cons a r ih =>
    intro h
    have ha : a ≠ '_' := fun he => h (he ▸ List.mem_cons_self _ _)
    have hr : '_' ∉ r := fun hm => h (List.mem_cons_of_mem _ hm)
    simp only [splitU, ih hr]
    rw [if_neg ha]

/-- `procPart` maps characters to themselves or their `toUpper`. -/
theorem procPart_chars {P : Char → Prop}
    (hP : ∀ c, P c → P (Char.toUpper c)) :
    ∀ (p : List Char), (∀ c ∈ p, P c) → ∀ c ∈ procPart p, P c := by
  intro p hp c hc
  unfold procPart at hc
  by_cases h0 : p = []
  · rw [if_pos h0] at hc
    exact hp c hc
  · rw [if_neg h0] at hc
    by_cases h1 : isAllUpper p ∧ 1 < p.length
    · rw [if_pos h1] at hc
      exact hp c hc
    · rw [if_neg h1] at hc
      by_cases h2 : p.length = 1
      · rw [if_pos h2] at hc
        rcases List.mem_map.mp hc with ⟨d, hd, he⟩
        exact he ▸ hP d (hp d hd)
      · rw [if_neg h2] at hc
        cases p with
        | nil => exact absurd rfl h0
        | cons a rest =>
          rcases List.mem_cons.mp hc with h3 | h4
          · exact h3 ▸ hP a (hp a (List.mem_cons_self _ _))
          · exact hp c (List.mem_cons_of_mem _ h4)

/-- The head of a processed part is never a lowercase letter. -/
theorem procPart_head (p : List Char) :
    ∀ c, (procPart p).head? = some c → ¬(97 ≤ c.toNat ∧ c.toNat ≤ 122) := by
  intro c hc
  unfold procPart at hc
  by_cases h0 : p = []
  · rw [if_pos h0, h0] at hc
    simp at hc
  · rw [if_neg h0] at hc
    by_cases h1 : isAllUpper p ∧ 1 < p.length
    · rw [if_pos h1] at hc
      cases p with
      | nil => exact absurd rfl h0
      | cons a rest =>
        simp only [List.head?_cons, Option.some.injEq] at hc
        have hall := h1.1
        simp only [isAllUpper, List.all_eq_true] at hall
        have ha := hall a (List.mem_cons_self _ _)
        simp only [Bool.not_eq_true', Bool.and_eq_false_iff, decide_eq_false_iff_not,
          not_le] at ha
        intro hcontra
        rw [← hc] at hcontra
        rcases ha with h | h <;> omega
    · rw [if_neg h1] at hc
      by_cases h2 : p.length = 1
      · rw [if_pos h2] at hc
        cases p with
        | nil => exact absurd rfl h0
        | cons a rest =>
          cases rest with
          | nil =>
            simp only [List.map_cons, List.map_nil, List.head?_cons,
              Option.some.injEq] at hc
            exact hc ▸ toUpper_not_lower a
          | cons b r2 => simp at h2
      · rw [if_neg h2] at hc
        cases p with
        | nil => exact absurd rfl h0
        | cons a rest =>
          simp only [List.head?_cons, Option.some.injEq] at hc
          exact hc ▸ toUpper_not_lower a

/-- Heads of flattened lists inherit a head property of the chunks. -/
theorem flatten_head_good {Q : Char → Prop} :
    ∀ (L : List (List Char)), (∀ x ∈ L, ∀ c, x.head? = some c → Q c) →
      ∀ c, L.flatten.head? = some c → Q c := by
  intro L
  induction L with
  | nil =>
    intro _ c h
    simp at h
  | cons x L' ih =>
    intro hH c h
    rw [List.flatten_cons] at h
    cases x with
    | nil =>
      simp only [List.nil_append] at h
      exact ih (fun y hy => hH y (List.mem_cons_of_mem _ hy)) c h
    | cons a xs =>
      simp only [List.cons_append, List.head?_cons, Option.some.injEq] at h
      exact h ▸ hH (a :: xs) (List.mem_cons_self _ _) a rfl

/-- The head of `upperCamelL` output is never a lowercase letter. -/
theorem upperCamelL_head (s : List Char) :
    ∀ c, (upperCamelL s).head? = some c → ¬(97 ≤ c.toNat ∧ c.toNat ≤ 122) := by
  intro c hc
  unfold upperCamelL at hc
  by_cases h0 : s = []
  · rw [if_pos h0] at hc
    simp at hc
  · rw [if_neg h0] at hc
    refine flatten_head_good
      (Q := fun d => ¬(97 ≤ d.toNat ∧ d.toNat ≤ 122)) _ ?_ c hc
    intro x hx d hd
    rcases List.mem_map.mp hx with ⟨p, _, hp⟩
    exact procPart_head p d (hp ▸ hd)

/-- `upperCamelL` of a dash/dot/space-free string contains no underscore,
dash, dot or space. -/
theorem upperCamelL_no_bad (s : List Char)
    (hs : ∀ c ∈ s, c ≠ '-' ∧ c ≠ '.' ∧ c ≠ ' ') :
    ∀ c ∈ upperCamelL s, c ≠ '_' ∧ c ≠ '-' ∧ c ≠ '.' ∧ c ≠ ' ' := by
  intro c hc
  unfold upperCamelL at hc
  by_cases h0 : s = []
  · rw [if_pos h0] at hc
    simp at hc
  · rw [if_neg h0] at hc
    rcases List.mem_flatten.mp hc with ⟨x, hx, hcx⟩
    rcases List.mem_map.mp hx with ⟨p, hp, hpx⟩
    have hchars : ∀ d ∈ p, d ≠ '_' ∧ d ≠ '-' ∧ d ≠ '.' ∧ d ≠ ' ' := by
      intro d hd
      have h1 := mem_splitU_subset s hs p hp d hd
      have h2 := not_underscore_mem_splitU s p hp
      exact ⟨fun he => h2 (he ▸ hd), h1⟩
    have hpres : ∀ d : Char,
        (d ≠ '_' ∧ d ≠ '-' ∧ d ≠ '.' ∧ d ≠ ' ') →
        (Char.toUpper d ≠ '_' ∧ Char.toUpper d ≠ '-' ∧
          Char.toUpper d ≠ '.' ∧ Char.toUpper d ≠ ' ') := by
      intro d hd
      rcases toUpper_eq_or_bound d with he | hb
      · rw [he]
        exact hd
      · have h1 : ('_' : Char).toNat = 95 := rfl
        have h2 : ('-' : Char).toNat = 45 := rfl
        have h3 : ('.' : Char).toNat = 46 := rfl
        have h4 : (' ' : Char).toNat = 32 := rfl
        exact ⟨ne_of_toNat_ne (by omega), ne_of_toNat_ne (by omega),
          ne_of_toNat_ne (by omega), ne_of_toNat_ne (by omega)⟩
    exact procPart_chars hpres p hchars c (hpx ▸ hcx)

/-- `nonAlnumReplaceL` leaves dash/dot/space-free strings unchanged. -/
theorem nonAlnumReplaceL_id (s : List Char)
    (h : ∀ c ∈ s, c ≠ '-' ∧ c ≠ '.' ∧ c ≠ ' ') :
    nonAlnumReplaceL s = s := by
  induction s with
  | nil => rfl
  | cons a r ih =>
    rcases h a (List.mem_cons_self _ _) with ⟨h1, h2, h3⟩
    unfold nonAlnumReplaceL
    simp only [List.map_cons]
    rw [if_neg (by rintro (he | he | he) <;> simp_all)]
    exact congrArg (a :: ·) (ih (fun c hc => h c (List.mem_cons_of_mem _ hc)))

/-- The output of `nonAlnumReplaceL` never contains dash, dot or space. -/
theorem nonAlnumReplaceL_no_bad (s : List Char) :
    ∀ c ∈ nonAlnumReplaceL s, c ≠ '-' ∧ c ≠ '.' ∧ c ≠ ' ' := by
  intro c hc
  unfold nonAlnumReplaceL at hc
  rcases List.mem_map.mp hc with ⟨d, _, hd⟩
  by_cases h : d = '-' ∨ d = '.' ∨ d = ' '
  · rw [if_pos h] at hd
    subst hd
    refine ⟨?_, ?_, ?_⟩ <;> decide
  · rw [if_neg h] at hd
    subst hd
    push_neg at h
    exact h

/-- A nonempty underscore-free string whose head is not a lowercase letter
is a fixed point of `procPart`. -/
theorem procPart_fixed (p : List Char) (hne : p ≠ [])
    (hh : ∀ c, p.head? = some c → ¬(97 ≤ c.toNat ∧ c.toNat ≤ 122)) :
    procPart p = p := by
  unfold procPart
  rw [if_neg hne]
  by_cases hau : isAllUpper p ∧ 1 < p.length
  · rw [if_pos hau]
  · rw [if_neg hau]
    cases p with
    | nil => exact absurd rfl hne
    | cons c rest =>
      have hc := hh c rfl
      by_cases hl : (c :: rest).length = 1
      · rw [if_pos hl]
        cases rest with
        | nil => simp [toUpper_of_not_lower c hc]
        | cons b r2 => simp at hl
      · rw [if_neg hl]
        simp [toUpper_of_not_lower c hc]

/-- `upperCamelL` fixes its own underscore-free, good-headed output. -/
theorem upperCamelL_fixed (R : List Char)
    (hU : '_' ∉ R)
    (hh : ∀ c, R.head? = some c → ¬(97 ≤ c.toNat ∧ c.toNat ≤ 122)) :
    upperCamelL R = R := by
  by_cases h0 : R = []
  · rw [h0]
    rfl
  · unfold upperCamelL
    rw [if_neg h0, splitU_no_underscore R hU]
    simp only [List.map_cons, List.map_nil, List.flatten_cons, List.flatten_nil,
      List.append_nil]
    exact procPart_fixed R h0 hh

/-- Claim C9: the type-name normalizer is idempotent on ASCII input:
`normalizeMessage (normalizeMessage s) = normalizeMessage s`. -/
theorem claim_C9_normalize_idempotent :
    ∀ (s : String), (∀ c ∈ s.data, c.toNat < 128) →
      normalizeMessage (normalizeMessage s) = normalizeMessage s := by
  intro s _hascii
  unfold normalizeMessage
  apply congrArg String.mk
  show upperCamelL (nonAlnumReplaceL (upperCamelL (nonAlnumReplaceL s.data))) =
    upperCamelL (nonAlnumReplaceL s.data)
  set t := nonAlnumReplaceL s.data with ht
  have hno : ∀ c ∈ t, c ≠ '-' ∧ c ≠ '.' ∧ c ≠ ' ' := nonAlnumReplaceL_no_bad s.data
  have hR : ∀ c ∈ upperCamelL t, c ≠ '_' ∧ c ≠ '-' ∧ c ≠ '.' ∧ c ≠ ' ' :=
    upperCamelL_no_bad t hno
  rw [nonAlnumReplaceL_id (upperCamelL t)
    (fun c hc => ⟨(hR c hc).2.1, (hR c hc).2.2.1, (hR c hc).2.2.2⟩)]
  exact upperCamelL_fixed (upperCamelL t)
    (fun hin => (hR '_' hin).1 rfl)
    (upperCamelL_head t)

/-- Witness for C9 on the spec's example identifier `user_profile`. -/
theorem claim_C9_normalize_idempotent_witness :
    normalizeMessage (normalizeMessage "user_profile") = normalizeMessage "user_profile" :=
  claim_C9_normalize_idempotent "user_profile" (by decide)

/-! ## Field-number extraction from a message body

These functions formalize "the field numbers assigned to the fields
written in a message's body": starting right after the block's opening
line, events are scanned at nesting depth 1 (message and enum blocks nest;
a oneof group is part of its message's body), stopping at the matching
closing line.  `counterNum` reads the numbers of the declarations that
draw on the message's running counter; `bodyNumAll` additionally accounts
the map-entries line, whose rendered number is the literal `1`
(see `render`). -/

/-- The field number of a body declaration drawing on the running
`fieldNum` counter. -/
def counterNum : Ev → Option Nat
  | .field _ _ _ n _ => some n
  | .oneofField _ _ n => some n
  | .anyofRepeated _ n => some n
  | _ => none

/-- The field number of any body field declaration, including the
map-entries line (which always renders as `entries = 1`). -/
def bodyNumAll : Ev → Option Nat
  | .mapEntries _ => some 1
  | e => counterNum e

/-- Scan an event list at a given block depth, collecting `f`-numbers of
depth-1 events and stopping at the close that returns to depth 0. -/
def scanNums (f : Ev → Option Nat) : List Ev → Nat → List Nat
  | [], _ => []
  | e :: r, d =>
    match e with
    | .msgOpen _ => scanNums f r (d + 1)
    | .enumOpen _ => scanNums f r (d + 1)
    | .msgClose => if d = 1 then [] else scanNums f r (d - 1)
    | .enumClose => if d = 1 then [] else scanNums f r (d - 1)
    | e => (if d = 1 then (f e).toList else []) ++ scanNums f r d

/-- The `f`-numbers of the body of the message block that starts the given
event list. -/
def msgBodyNums (f : Ev → Option Nat) (evs : List Ev) : List Nat :=
  match evs with
  | Ev.msgOpen _ :: r => scanNums f r 1
  | _ => []

/-! ## C1: field numbering -/

/-- A schema carrying both `additionalProperties` (no properties) and a
`oneOf`: the shape on which the map-entries field and the oneOf branch
fields coexist in one message body. -/
def mapOneOfSchema : Schema :=
  { emptySchema with addlProps := some intSchema, oneOf := [strSchema] }

/-- Counterexample to C1 as stated: in the message emitted for
`mapOneOfSchema` the body's field numbers are `[1, 1]` — the map-entries
field is hardcoded to `1` and does not draw from the shared counter, and
the first oneOf branch also gets `1` — so the numbers do not form one
strictly increasing gapless sequence `1..k`. -/
theorem claim_C1_cex :
    emitSchema ⟨true, "oneof", false⟩ [("MapChoice", mapOneOfSchema)] 10 []
        "MapChoice" mapOneOfSchema =
      some (["MapChoice"],
        [Ev.msgOpen "MapChoice", Ev.mapEntries "int64", Ev.oneofOpen "one_of",
         Ev.oneofField "string" "choice_1" 1, Ev.oneofClose, Ev.msgClose]) ∧
    msgBodyNums bodyNumAll
        [Ev.msgOpen "MapChoice", Ev.mapEntries "int64", Ev.oneofOpen "one_of",
         Ev.oneofField "string" "choice_1" 1, Ev.oneofClose, Ev.msgClose] = [1, 1] ∧
    ([1, 1] : List Nat) ≠ List.range' 1 2 := by
  refine ⟨by decide, by decide, by decide⟩

/-! ## C2 and C4 counterexamples: the eager map-value message -/

/-- An object with one string property, used as a map value type. -/
def valueObj : Schema :=
  { emptySchema with type := "object", properties := [("a", strSchema)] }

/-- A pure map schema whose value type needs synthesis. -/
def fooMapSchema : Schema := { emptySchema with addlProps := some valueObj }

/-- Counterexample to C2 as stated: the synthesized map-value message is
*not* emitted ahead of (outside) the enclosing message's block — the
output opens the enclosing `Foo` block first, the `Value` block begins
inside it (immediately before the entries line), and the enclosing block's
closing line comes last. -/
theorem claim_C2_cex :
    emitSchema ⟨true, "oneof", false⟩ [("Foo", fooMapSchema)] 10 [] "Foo" fooMapSchema =
      some (["Value", "Foo"],
        [Ev.msgOpen "Foo", Ev.msgOpen "Value", Ev.field false "string" "a" 1 "",
         Ev.msgClose, Ev.mapEntries "Value", Ev.msgClose]) ∧
    [Ev.msgOpen "Foo", Ev.msgOpen "Value", Ev.field false "string" "a" 1 "",
      Ev.msgClose, Ev.mapEntries "Value", Ev.msgClose].take 2 =
      [Ev.msgOpen "Foo", Ev.msgOpen "Value"] := by
  refine ⟨by decide, by decide⟩

/-- Counterexample to C4 as stated: the map-value message is emitted under
the bare local name `Value`, not under the parent-combined name
`FooValue`. -/
theorem claim_C4_cex :
    emitSchema ⟨true, "oneof", false⟩ [("Foo", fooMapSchema)] 10 [] "Foo" fooMapSchema =
      some (["Value", "Foo"],
        [Ev.msgOpen "Foo", Ev.msgOpen "Value", Ev.field false "string" "a" 1 "",
         Ev.msgClose, Ev.mapEntries "Value", Ev.msgClose]) ∧
    Ev.msgOpen "Value" ∈
      [Ev.msgOpen "Foo", Ev.msgOpen "Value", Ev.field false "string" "a" 1 "",
       Ev.msgClose, Ev.mapEntries "Value", Ev.msgClose] ∧
    Ev.msgOpen "FooValue" ∉
      [Ev.msgOpen "Foo", Ev.msgOpen "Value", Ev.field false "string" "a" 1 "",
       Ev.msgClose, Ev.mapEntries "Value", Ev.msgClose] := by
  refine ⟨by decide, by decide, by decide⟩

/-! ## C3: the repeated wrapper is dropped for synthesized array elements -/

/-- An object element type for an array property. -/
def tagItemObj : Schema :=
  { emptySchema with type := "object", properties := [("x", strSchema)] }

/-- An array-of-objects property schema. -/
def tagsArr : Schema := { emptySchema with type := "array", items := some tagItemObj }

/-- A message schema with one array-of-objects property `tags`. -/
def fooArrSchema : Schema :=
  { emptySchema with type := "object", properties := [("tags", tagsArr)] }

/-- C3 (code bug): `fieldType` maps the array-of-objects property to
`"repeated TagsItem"` with a synthesis request, but `emitMessage`
overwrites the whole type with the flattened name (main.go line 173), so
the emitted field reads `FooTagsItem tags = 1;` — the `repeated` wrapper
is lost, contradicting the claim (and the repository README's
`repeated <T>` contract for arrays). -/
theorem claim_C3_repeated_dropped :
    fieldType [] 9 "tags" tagsArr =
      some ("repeated TagsItem", some ("TagsItem", tagItemObj)) ∧
    emitSchema ⟨true, "oneof", false⟩ [("Foo", fooArrSchema)] 10 [] "Foo" fooArrSchema =
      some (["FooTagsItem", "Foo"],
        [Ev.msgOpen "Foo", Ev.field false "FooTagsItem" "tags" 1 "", Ev.msgClose,
         Ev.msgOpen "FooTagsItem", Ev.field false "string" "x" 1 "", Ev.msgClose]) ∧
    Ev.field false "FooTagsItem" "tags" 1 "" ∈
      [Ev.msgOpen "Foo", Ev.field false "FooTagsItem" "tags" 1 "", Ev.msgClose,
       Ev.msgOpen "FooTagsItem", Ev.field false "string" "x" 1 "", Ev.msgClose] ∧
    Ev.field false "repeated FooTagsItem" "tags" 1 "" ∉
      [Ev.msgOpen "Foo", Ev.field false "FooTagsItem" "tags" 1 "", Ev.msgClose,
       Ev.msgOpen "FooTagsItem", Ev.field false "string" "x" 1 "", Ev.msgClose] := by
  refine ⟨rfl, by decide, by decide, by decide⟩

/-! ## Depth-scan algebra

`NeutralAt k x` says the chunk `x` is invisible to the body scan whenever
the scan enters it at depth ≥ k: complete nested blocks are `NeutralAt 1`,
and the direct body events of a message are `NeutralAt 2` (they are only
visible at depth exactly 1). -/

/-- Events that do not open or close a block. -/
def isFlat : Ev → Bool
  | .msgOpen _ => false
  | .msgClose => false
  | .enumOpen _ => false
  | .enumClose => false
  | _ => true

theorem scanNums_msgOpen (f : Ev → Option Nat) (nm : String) (r : List Ev) (d : Nat) :
    scanNums f (Ev.msgOpen nm :: r) d = scanNums f r (d + 1) := rfl

theorem scanNums_enumOpen (f : Ev → Option Nat) (nm : String) (r : List Ev) (d : Nat) :
    scanNums f (Ev.enumOpen nm :: r) d = scanNums f r (d + 1) := rfl

theorem scanNums_msgClose (f : Ev → Option Nat) (r : List Ev) (d : Nat) :
    scanNums f (Ev.msgClose :: r) d = if d = 1 then [] else scanNums f r (d - 1) := rfl

theorem scanNums_enumClose (f : Ev → Option Nat) (r : List Ev) (d : Nat) :
    scanNums f (Ev.enumClose :: r) d = if d = 1 then [] else scanNums f r (d - 1) := rfl

theorem scanNums_flat (f : Ev → Option Nat) (e : Ev) (r : List Ev) (d : Nat)
    (h : isFlat e = true) :
    scanNums f (e :: r) d = (if d = 1 then (f e).toList else []) ++ scanNums f r d := by
  cases e <;> first
    | rfl
    | simp [isFlat] at h

/-- Invisibility of a chunk to the `counterNum` body scan at depth ≥ k. -/
def NeutralAt (k : Nat) (x : List Ev) : Prop :=
  ∀ (r : List Ev) (d : Nat), k ≤ d →
    scanNums counterNum (x ++ r) d = scanNums counterNum r d

theorem neutralAt_nil (k : Nat) : NeutralAt k [] := fun _ _ _ => rfl

theorem neutralAt_append {k : Nat} {x y : List Ev}
    (hx : NeutralAt k x) (hy : NeutralAt k y) : NeutralAt k (x ++ y) := by
  intro r d hd
  rw [List.append_assoc, hx (y ++ r) d hd, hy r d hd]

theorem neutralAt_mono {k j : Nat} {x : List Ev} (hkj : k ≤ j)
    (h : NeutralAt k x) : NeutralAt j x :=
  fun r d hd => h r d (le_trans hkj hd)

theorem neutralAt_cons {k : Nat} {e : Ev} {x : List Ev}
    (he : NeutralAt k [e]) (hx : NeutralAt k x) : NeutralAt k (e :: x) := by
  have := neutralAt_append he hx
  simpa using this

/-- A flat event is invisible at depth ≥ 2. -/
theorem neutralAt_two_flat (e : Ev) (h : isFlat e = true) : NeutralAt 2 [e] := by
  intro r d hd
  rw [List.singleton_append, scanNums_flat _ _ _ _ h, if_neg (by omega)]
  rfl

/-- A flat event carrying no counter number is invisible at depth ≥ 1. -/
theorem neutralAt_one_flat (e : Ev) (hf : isFlat e = true)
    (hc : counterNum e = none) : NeutralAt 1 [e] := by
  intro r d hd
  rw [List.singleton_append, scanNums_flat _ _ _ _ hf, hc]
  cases Nat.decEq d 1 with
  | isTrue h => simp [h, Option.toList]
  | isFalse h => simp [h, Option.toList]

/-- A complete message block followed by a neutral tail is neutral at
depth ≥ 1, provided its body is neutral at depth ≥ 2. -/
theorem neutralAt_one_msgBlock (nm : String) (mid rest : List Ev)
    (hmid : NeutralAt 2 mid) (hrest : NeutralAt 1 rest) :
    NeutralAt 1 (Ev.msgOpen nm :: mid ++ Ev.msgClose :: rest) := by
  intro r d hd
  have hre : (Ev.msgOpen nm :: mid ++ Ev.msgClose :: rest) ++ r =
      Ev.msgOpen nm :: (mid ++ Ev.msgClose :: (rest ++ r)) := by simp
  rw [hre, scanNums_msgOpen, hmid _ _ (by omega), scanNums_msgClose,
    if_neg (by omega)]
  have h2 : d + 1 - 1 = d := by omega
  rw [h2]
  exact hrest r d hd

/-- Same for a complete enum block. -/
theorem neutralAt_one_enumBlock (nm : String) (mid rest : List Ev)
    (hmid : NeutralAt 2 mid) (hrest : NeutralAt 1 rest) :
    NeutralAt 1 (Ev.enumOpen nm :: mid ++ Ev.enumClose :: rest) := by
  intro r d hd
  have hre : (Ev.enumOpen nm :: mid ++ Ev.enumClose :: rest) ++ r =
      Ev.enumOpen nm :: (mid ++ Ev.enumClose :: (rest ++ r)) := by simp
  rw [hre, scanNums_enumOpen, hmid _ _ (by omega), scanNums_enumClose,
    if_neg (by omega)]
  have h2 : d + 1 - 1 = d := by omega
  rw [h2]
  exact hrest r d hd

theorem neutralAt_enumMembers (u : String) (l : List String) (i : Nat) :
    NeutralAt 1 (enumMembers u l i) := by
  induction l generalizing i with
  | nil => exact neutralAt_nil 1
  | cons v rest ih =>
    exact neutralAt_cons (neutralAt_one_flat _ rfl rfl) (ih (i + 1))

/-- The full output of `emitEnum` is a closed block. -/
theorem neutralAt_emitEnum (name : String) (s : Schema) :
    NeutralAt 1 (emitEnum name s) := by
  unfold emitEnum
  have hmid : NeutralAt 2
      (Ev.enumMember (upperAscii (normalizeMessage name) ++ "_UNSPECIFIED") 0 ::
        enumMembers (upperAscii (normalizeMessage name)) s.enum 0) :=
    neutralAt_mono (by omega)
      (neutralAt_cons (neutralAt_one_flat _ rfl rfl)
        (neutralAt_enumMembers _ _ _))
  have := neutralAt_one_enumBlock (normalizeMessage name)
    (Ev.enumMember (upperAscii (normalizeMessage name) ++ "_UNSPECIFIED") 0 ::
      enumMembers (upperAscii (normalizeMessage name)) s.enum 0)
    [] hmid (neutralAt_nil 1)
  simpa using this

/-- Appending ranges of consecutive starts. -/
theorem range1_append (s a b : Nat) :
    List.range' s a ++ List.range' (s + a) b = List.range' s (a + b) := by
  induction a generalizing s with
  | zero => simp
  | succ n ih =>
    have hnb : n + 1 + b = (n + b) + 1 := by omega
    rw [hnb, List.range'_succ, List.range'_succ, List.cons_append]
    have he : s + (n + 1) = (s + 1) + n := by omega
    rw [he, ih (s + 1)]

/-- Per-constructor unfolding of the scan on flat events. -/
theorem scanNums_cons_field (f : Ev → Option Nat) (o : Bool) (t fname : String)
    (n : Nat) (ds : String) (r : List Ev) (d : Nat) :
    scanNums f (Ev.field o t fname n ds :: r) d =
      (if d = 1 then (f (Ev.field o t fname n ds)).toList else []) ++ scanNums f r d := rfl

theorem scanNums_cons_oneofField (f : Ev → Option Nat) (t fname : String)
    (n : Nat) (r : List Ev) (d : Nat) :
    scanNums f (Ev.oneofField t fname n :: r) d =
      (if d = 1 then (f (Ev.oneofField t fname n)).toList else []) ++ scanNums f r d := rfl

theorem scanNums_cons_anyofRepeated (f : Ev → Option Nat) (t : String)
    (n : Nat) (r : List Ev) (d : Nat) :
    scanNums f (Ev.anyofRepeated t n :: r) d =
      (if d = 1 then (f (Ev.anyofRepeated t n)).toList else []) ++ scanNums f r d := rfl

theorem scanNums_cons_oneofOpen (f : Ev → Option Nat) (g : String)
    (r : List Ev) (d : Nat) :
    scanNums f (Ev.oneofOpen g :: r) d =
      (if d = 1 then (f (Ev.oneofOpen g)).toList else []) ++ scanNums f r d := rfl

theorem scanNums_cons_oneofClose (f : Ev → Option Nat) (r : List Ev) (d : Nat) :
    scanNums f (Ev.oneofClose :: r) d =
      (if d = 1 then (f Ev.oneofClose).toList else []) ++ scanNums f r d := rfl

theorem scanNums_cons_mapEntries (f : Ev → Option Nat) (vt : String)
    (r : List Ev) (d : Nat) :
    scanNums f (Ev.mapEntries vt :: r) d =
      (if d = 1 then (f (Ev.mapEntries vt)).toList else []) ++ scanNums f r d := rfl

/-! ## Characterizations of the emitter loops -/

/-- Every entry `queueNested` adds to the deferred queue is named by
combining the enclosing message name with the synthesis request's local
name. -/
theorem queueNested_mem (visited : List String) (msgName : String)
    (toEmit : List (String × Schema)) (pt0 : String)
    (nested : Option (String × Schema)) :
    ∀ p ∈ (queueNested visited msgName toEmit pt0 nested).2,
      p ∈ toEmit ∨
        ∃ base sch, p = (normalizeMessage (msgName ++ "_" ++ base), sch) := by
  intro p hp
  cases nested with
  | none => exact Or.inl hp
  | some bs =>
    obtain ⟨base, sch⟩ := bs
    have hp' : p ∈ (if visited.contains (normalizeMessage (msgName ++ "_" ++ base))
        then toEmit
        else toEmit ++ [(normalizeMessage (msgName ++ "_" ++ base), sch)]) := hp
    by_cases hv : visited.contains (normalizeMessage (msgName ++ "_" ++ base))
    · rw [if_pos hv] at hp'
      exact Or.inl hp'
    · rw [if_neg hv] at hp'
      rcases List.mem_append.mp hp' with h | h
      · exact Or.inl h
      · right
        refine ⟨base, sch, ?_⟩
        simpa using h

/-- Full characterization of the property loop: the produced events are a
run of field lines numbered consecutively from the entry counter, the
counter advances by their count, the chunk is invisible below depth 1, and
every queued entry is either inherited or parent-prefixed. -/
theorem propsLoop_spec (reg : Registry) (fuel : Nat) (cfg : Cfg)
    (visited : List String) (msgName : String) (props : List (String × Schema)) :
    ∀ (names : List String) (fieldNum : Nat) (toEmit : List (String × Schema))
      (evs : List Ev) (te : List (String × Schema)) (fn : Nat),
      propsLoop reg fuel cfg visited msgName props names fieldNum toEmit =
        some (evs, te, fn) →
      fn = fieldNum + evs.length ∧
      NeutralAt 2 evs ∧
      (∀ r, scanNums counterNum (evs ++ r) 1 =
        List.range' fieldNum evs.length ++ scanNums counterNum r 1) ∧
      (∀ p ∈ te, p ∈ toEmit ∨
        ∃ base sch, p = (normalizeMessage (msgName ++ "_" ++ base), sch)) := by
  intro names
  induction names with
  | nil =>
    intro fieldNum toEmit evs te fn h
    simp only [propsLoop, Option.some.injEq, Prod.mk.injEq] at h
    obtain ⟨rfl, rfl, rfl⟩ := h
    refine ⟨by simp, neutralAt_nil 2, ?_, fun p hp => Or.inl hp⟩
    intro r
    simp
  | cons prop rest ih =>
    intro fieldNum toEmit evs te fn h
    simp only [propsLoop] at h
    split at h
    · exact absurd h (by simp)
    rename_i pr pt0 nested hft
    split at h
    · exact absurd h (by simp)
    rename_i out evs' te' fn' hrec
    · simp only [Option.some.injEq, Prod.mk.injEq] at h
      obtain ⟨rfl, rfl, rfl⟩ := h
      obtain ⟨ih1, ih2, ih3, ih4⟩ := ih (fieldNum + 1) _ _ _ _ hrec
      refine ⟨?_, ?_, ?_, ?_⟩
      · simp only [List.length_cons]
        omega
      · exact neutralAt_cons (neutralAt_two_flat _ rfl) ih2
      · intro r
        rw [List.cons_append, scanNums_cons_field, if_pos rfl, ih3 r]
        simp [counterNum, List.range'_succ]
      · intro p hp
        rcases ih4 p hp with hin | hpre
        · exact queueNested_mem visited msgName toEmit pt0 nested p hin
        · exact Or.inr hpre

/-- The same characterization for the oneOf/anyOf branch loop. -/
theorem branchLoop_spec (reg : Registry) (fuel : Nat) (visited : List String)
    (msgName : String) (stem : String) :
    ∀ (branches : List Schema) (idx fieldNum : Nat)
      (toEmit : List (String × Schema))
      (evs : List Ev) (te : List (String × Schema)) (fn : Nat),
      branchLoop reg fuel visited msgName stem branches idx fieldNum toEmit =
        some (evs, te, fn) →
      fn = fieldNum + evs.length ∧
      NeutralAt 2 evs ∧
      (∀ r, scanNums counterNum (evs ++ r) 1 =
        List.range' fieldNum evs.length ++ scanNums counterNum r 1) ∧
      (∀ p ∈ te, p ∈ toEmit ∨
        ∃ base sch, p = (normalizeMessage (msgName ++ "_" ++ base), sch)) := by
  intro branches
  induction branches with
  | nil =>
    intro idx fieldNum toEmit evs te fn h
    simp only [branchLoop, Option.some.injEq, Prod.mk.injEq] at h
    obtain ⟨rfl, rfl, rfl⟩ := h
    refine ⟨by simp, neutralAt_nil 2, ?_, fun p hp => Or.inl hp⟩
    intro r
    simp
  | cons branch rest ih =>
    intro idx fieldNum toEmit evs te fn h
    simp only [branchLoop] at h
    split at h
    · exact absurd h (by simp)
    rename_i pr pt0 nested hft
    split at h
    · exact absurd h (by simp)
    rename_i out evs' te' fn' hrec
    · simp only [Option.some.injEq, Prod.mk.injEq] at h
      obtain ⟨rfl, rfl, rfl⟩ := h
      obtain ⟨ih1, ih2, ih3, ih4⟩ := ih (idx + 1) (fieldNum + 1) _ _ _ _ hrec
      refine ⟨?_, ?_, ?_, ?_⟩
      · simp only [List.length_cons]
        omega
      · exact neutralAt_cons (neutralAt_two_flat _ rfl) ih2
      · intro r
        rw [List.cons_append, scanNums_cons_oneofField, if_pos rfl, ih3 r]
        simp [counterNum, List.range'_succ]
      · intro p hp
        rcases ih4 p hp with hin | hpre
        · exact queueNested_mem visited msgName toEmit pt0 nested p hin
        · exact Or.inr hpre

/-- Characterization of the oneOf block: a (possibly empty) group whose
branch fields continue the counter, invisible below depth 1, queue entries
parent-prefixed. -/
theorem oneofPart_spec (reg : Registry) (fuel : Nat) (visited : List String)
    (msgName : String) (oneOf : List Schema) (fieldNum : Nat)
    (toEmit : List (String × Schema)) (evs : List Ev)
    (te : List (String × Schema)) (fn : Nat)
    (h : oneofPart reg fuel visited msgName oneOf fieldNum toEmit =
      some (evs, te, fn)) :
    ∃ k, fn = fieldNum + k ∧ NeutralAt 2 evs ∧
      (∀ r, scanNums counterNum (evs ++ r) 1 =
        List.range' fieldNum k ++ scanNums counterNum r 1) ∧
      (∀ p ∈ te, p ∈ toEmit ∨
        ∃ base sch, p = (normalizeMessage (msgName ++ "_" ++ base), sch)) := by
  unfold oneofPart at h
  split at h
  · split at h
    · exact absurd h (by simp)
    rename_i out bevs bte bfn hbr
    · simp only [Option.some.injEq, Prod.mk.injEq] at h
      obtain ⟨rfl, rfl, rfl⟩ := h
      obtain ⟨h1, h2, h3, h4⟩ := branchLoop_spec reg fuel visited msgName "choice_"
        oneOf 1 fieldNum toEmit bevs bte bfn hbr
      refine ⟨bevs.length, h1, ?_, ?_, h4⟩
      · exact neutralAt_cons (neutralAt_two_flat _ rfl)
          (neutralAt_append h2 (neutralAt_two_flat _ rfl))
      · intro r
        have hre : (Ev.oneofOpen "one_of" :: bevs ++ [Ev.oneofClose]) ++ r =
            Ev.oneofOpen "one_of" :: (bevs ++ (Ev.oneofClose :: r)) := by simp
        rw [hre, scanNums_cons_oneofOpen, if_pos rfl, h3 (Ev.oneofClose :: r),
          scanNums_cons_oneofClose, if_pos rfl]
        simp [counterNum]
  · simp only [Option.some.injEq, Prod.mk.injEq] at h
    obtain ⟨rfl, rfl, rfl⟩ := h
    exact ⟨0, by simp, neutralAt_nil 2, fun r => by simp, fun p hp => Or.inl hp⟩

/-- Characterization of the anyOf handling, both modes. -/
theorem anyofPart_spec (cfg : Cfg) (reg : Registry) (fuel : Nat)
    (visited : List String) (msgName : String) (anyOf : List Schema)
    (fieldNum : Nat) (toEmit : List (String × Schema)) (evs : List Ev)
    (te : List (String × Schema)) (fn : Nat)
    (h : anyofPart cfg reg fuel visited msgName anyOf fieldNum toEmit =
      some (evs, te, fn)) :
    ∃ k, fn = fieldNum + k ∧ NeutralAt 2 evs ∧
      (∀ r, scanNums counterNum (evs ++ r) 1 =
        List.range' fieldNum k ++ scanNums counterNum r 1) ∧
      (∀ p ∈ te, p ∈ toEmit ∨
        ∃ base sch, p = (normalizeMessage (msgName ++ "_" ++ base), sch)) := by
  unfold anyofPart at h
  split at h
  · split at h
    · split at h
      · exact absurd h (by simp)
      rename_i pr pt0 nested hft
      · simp only [Option.some.injEq, Prod.mk.injEq] at h
        obtain ⟨rfl, rfl, rfl⟩ := h
        refine ⟨1, rfl, ?_, ?_, ?_⟩
        · exact neutralAt_two_flat _ rfl
        · intro r
          rw [List.singleton_append, scanNums_cons_anyofRepeated, if_pos rfl]
          simp [counterNum, List.range'_one]
        · exact queueNested_mem visited msgName toEmit pt0 nested
    · split at h
      · exact absurd h (by simp)
      rename_i out bevs bte bfn hbr
      · simp only [Option.some.injEq, Prod.mk.injEq] at h
        obtain ⟨rfl, rfl, rfl⟩ := h
        obtain ⟨h1, h2, h3, h4⟩ := branchLoop_spec reg fuel visited msgName "alt_"
          anyOf 1 fieldNum toEmit bevs bte bfn hbr
        refine ⟨bevs.length, h1, ?_, ?_, h4⟩
        · exact neutralAt_cons (neutralAt_two_flat _ rfl)
            (neutralAt_append h2 (neutralAt_two_flat _ rfl))
        · intro r
          have hre : (Ev.oneofOpen "any_of" :: bevs ++ [Ev.oneofClose]) ++ r =
              Ev.oneofOpen "any_of" :: (bevs ++ (Ev.oneofClose :: r)) := by simp
          rw [hre, scanNums_cons_oneofOpen, if_pos rfl, h3 (Ev.oneofClose :: r),
            scanNums_cons_oneofClose, if_pos rfl]
          simp [counterNum]
  · simp only [Option.some.injEq, Prod.mk.injEq] at h
    obtain ⟨rfl, rfl, rfl⟩ := h
    exact ⟨0, by simp, neutralAt_nil 2, fun r => by simp, fun p hp => Or.inl hp⟩

/-- All four mutually recursive emitter functions produce closed chunks:
their output is invisible to the body scan of any enclosing message.  This
is the structural fact behind the field-numbering invariant: everything a
nested (eager or deferred) emission writes sits at depth ≥ 2 of the
enclosing body, or after its closing line. -/
theorem emit_neutral :
    ∀ fuel : Nat,
      (∀ (cfg : Cfg) (reg : Registry) (vis : List String) (name : String)
        (s : Schema) (out : List String × List Ev),
        emitSchema cfg reg fuel vis name s = some out → NeutralAt 1 out.2) ∧
      (∀ (cfg : Cfg) (reg : Registry) (vis : List String) (name : String)
        (s : Schema) (out : List String × List Ev),
        emitMessage cfg reg fuel vis name s = some out → NeutralAt 1 out.2) ∧
      (∀ (cfg : Cfg) (reg : Registry) (vis : List String) (s : Schema)
        (mp : List (String × Schema)) (out : List Ev × List String),
        mapPart cfg reg fuel vis s mp = some out → NeutralAt 1 out.1) ∧
      (∀ (cfg : Cfg) (reg : Registry) (vis : List String)
        (q : List (String × Schema)) (out : List String × List Ev),
        drainQueue cfg reg fuel vis q = some out → NeutralAt 1 out.2) := by
  intro fuel
  induction fuel with
  | zero =>
    refine ⟨?_, ?_, ?_, ?_⟩
    · intro cfg reg vis name s out h
      simp [emitSchema] at h
    · intro cfg reg vis name s out h
      simp [emitMessage] at h
    · intro cfg reg vis s mp out h
      simp [mapPart] at h
    · intro cfg reg vis q out h
      simp [drainQueue] at h
  | succ n ih =>
    obtain ⟨ihS, ihM, ihP, ihD⟩ := ih
    refine ⟨?_, ?_, ?_, ?_⟩
    · -- emitSchema
      intro cfg reg vis name s out h
      simp only [emitSchema] at h
      split at h
      · simp only [Option.some.injEq] at h
        subst h
        exact neutralAt_nil 1
      · split at h
        · simp only [Option.some.injEq] at h
          subst h
          exact neutralAt_emitEnum _ _
        · split at h
          · exact ihM _ _ _ _ _ _ h
          · simp only [Option.some.injEq] at h
            subst h
            exact neutralAt_cons (neutralAt_one_flat _ rfl rfl)
              (neutralAt_one_flat _ rfl rfl)
    · -- emitMessage
      intro cfg reg vis name s out h
      simp only [emitMessage] at h
      split at h
      · exact absurd h (by simp)
      rename_i o1 propEvs toEmit1 fn1 hprops
      split at h
      · exact absurd h (by simp)
      rename_i o2 mapEvs visited1 hmap
      split at h
      · exact absurd h (by simp)
      rename_i o3 oneofEvs toEmit2 fn2 honeof
      split at h
      · exact absurd h (by simp)
      rename_i o4 anyofEvs toEmit3 fn3 hanyof
      split at h
      · exact absurd h (by simp)
      rename_i o5 visited2 deferEvs hdrain
      simp only [Option.some.injEq] at h
      subst h
      obtain ⟨-, hpN, -, -⟩ := propsLoop_spec _ _ _ _ _ _ _ _ _ _ _ _ hprops
      have hmapN := ihP _ _ _ _ _ _ hmap
      obtain ⟨k1, -, hoN, -, -⟩ := oneofPart_spec _ _ _ _ _ _ _ _ _ _ honeof
      obtain ⟨k2, -, haN, -, -⟩ := anyofPart_spec _ _ _ _ _ _ _ _ _ _ _ hanyof
      have hdN := ihD _ _ _ _ _ hdrain
      have hMid : NeutralAt 2 (propEvs ++ mapEvs ++ oneofEvs ++ anyofEvs) :=
        neutralAt_append (neutralAt_append (neutralAt_append hpN
          (neutralAt_mono (by omega) hmapN)) hoN) haN
      have hblock := neutralAt_one_msgBlock (normalizeMessage name)
        (propEvs ++ mapEvs ++ oneofEvs ++ anyofEvs) deferEvs hMid hdN
      have hshape :
          Ev.msgOpen (normalizeMessage name) ::
              (propEvs ++ mapEvs ++ oneofEvs ++ anyofEvs) ++
              Ev.msgClose :: deferEvs =
          Ev.msgOpen (normalizeMessage name) ::
            propEvs ++ mapEvs ++ oneofEvs ++ anyofEvs ++ Ev.msgClose :: deferEvs := by
        simp
      rw [hshape] at hblock
      exact hblock
    · -- mapPart
      intro cfg reg vis s mp out h
      simp only [mapPart] at h
      split at h
      · rename_i ap hap
        split at h
        · split at h
          · exact absurd h (by simp)
          rename_i o1 valType nested hft
          split at h
          · rename_i nm sch hnested
            split at h
            · exact absurd h (by simp)
            rename_i o2 v' innerEvs hinner
            simp only [Option.some.injEq] at h
            subst h
            exact neutralAt_append (ihS _ _ _ _ _ _ hinner)
              (neutralAt_one_flat _ rfl rfl)
          · simp only [Option.some.injEq] at h
            subst h
            have := neutralAt_one_flat (Ev.mapEntries valType) rfl rfl
            simpa using this
        · simp only [Option.some.injEq] at h
          subst h
          exact neutralAt_nil 1
      · simp only [Option.some.injEq] at h
        subst h
        exact neutralAt_nil 1
    · -- drainQueue
      intro cfg reg vis q out h
      cases q with
      | nil =>
        simp only [drainQueue, Option.some.injEq] at h
        subst h
        exact neutralAt_nil 1
      | cons p rest =>
        obtain ⟨nm, sch⟩ := p
        simp only [drainQueue] at h
        split at h
        · exact absurd h (by simp)
        rename_i o1 v1 e1 hS
        split at h
        · exact absurd h (by simp)
        rename_i o2 v2 e2 hD
        simp only [Option.some.injEq] at h
        subst h
        exact neutralAt_append (ihS _ _ _ _ _ _ hS) (ihD _ _ _ _ _ hD)

/-- Claim C1 as amended: within any single emitted message, the field
numbers of ordinary properties, oneOf branch fields and anyOf fields form
one strictly increasing gapless sequence starting at 1 drawn from a single
counter; the map-entries field does *not* draw from that counter — its
rendered number is always the literal 1 — so it duplicates number 1
whenever it coexists with oneOf/anyOf branch fields. -/
theorem claim_C1_amended :
    (∀ (cfg : Cfg) (reg : Registry) (fuel : Nat) (vis : List String)
      (name : String) (s : Schema) (out : List String × List Ev),
      emitMessage cfg reg fuel vis name s = some out →
      msgBodyNums counterNum out.2 =
        List.range' 1 (msgBodyNums counterNum out.2).length) ∧
    (∀ vt, render (Ev.mapEntries vt) =
      "  map<string," ++ vt ++ "> entries = 1;\n") := by
  constructor
  · intro cfg reg fuel vis name s out h
    cases fuel with
    | zero => simp [emitMessage] at h
    | succ n =>
      simp only [emitMessage] at h
      split at h
      · exact absurd h (by simp)
      rename_i o1 propEvs toEmit1 fn1 hprops
      split at h
      · exact absurd h (by simp)
      rename_i o2 mapEvs visited1 hmap
      split at h
      · exact absurd h (by simp)
      rename_i o3 oneofEvs toEmit2 fn2 honeof
      split at h
      · exact absurd h (by simp)
      rename_i o4 anyofEvs toEmit3 fn3 hanyof
      split at h
      · exact absurd h (by simp)
      rename_i o5 visited2 deferEvs hdrain
      simp only [Option.some.injEq] at h
      subst h
      obtain ⟨hp1, -, hp3, -⟩ := propsLoop_spec _ _ _ _ _ _ _ _ _ _ _ _ hprops
      have hmapN := (emit_neutral n).2.2.1 _ _ _ _ _ _ hmap
      obtain ⟨k1, ho1, -, ho3, -⟩ := oneofPart_spec _ _ _ _ _ _ _ _ _ _ honeof
      obtain ⟨k2, ha1, -, ha3, -⟩ := anyofPart_spec _ _ _ _ _ _ _ _ _ _ _ hanyof
      have hassoc : propEvs ++ mapEvs ++ oneofEvs ++ anyofEvs ++ Ev.msgClose :: deferEvs =
          propEvs ++ (mapEvs ++ (oneofEvs ++ (anyofEvs ++ Ev.msgClose :: deferEvs))) := by
        simp
      have hscan : msgBodyNums counterNum
          ((visited2,
            Ev.msgOpen (normalizeMessage name) ::
              propEvs ++ mapEvs ++ oneofEvs ++ anyofEvs ++ Ev.msgClose :: deferEvs) :
            List String × List Ev).2 =
          List.range' 1 (propEvs.length + (k1 + k2)) := by
        show scanNums counterNum
          (propEvs ++ mapEvs ++ oneofEvs ++ anyofEvs ++ Ev.msgClose :: deferEvs) 1 = _
        rw [hassoc, hp3, hmapN _ 1 (le_refl 1), ho3, ha3, scanNums_msgClose,
          if_pos rfl, List.append_nil]
        have e1 : fn1 = 1 + propEvs.length := by omega
        have e2 : fn2 = (1 + propEvs.length) + k1 := by omega
        rw [e1, e2, range1_append, range1_append]
      rw [hscan, List.length_range']
  · intro vt
    rfl

/-- Witness for the amended C1 on the map+oneOf schema: the counter-drawn
numbers of the body form `range' 1 k` even though the map-entries line
(not counter-drawn) also carries number 1. -/
theorem claim_C1_amended_witness :
    msgBodyNums counterNum
        [Ev.msgOpen "MapChoice", Ev.mapEntries "int64", Ev.oneofOpen "one_of",
         Ev.oneofField "string" "choice_1" 1, Ev.oneofClose, Ev.msgClose] =
      List.range' 1 (msgBodyNums counterNum
        [Ev.msgOpen "MapChoice", Ev.mapEntries "int64", Ev.oneofOpen "one_of",
         Ev.oneofField "string" "choice_1" 1, Ev.oneofClose, Ev.msgClose]).length := by
  have h := claim_C1_amended.1 ⟨true, "oneof", false⟩ [("MapChoice", mapOneOfSchema)]
    10 [] "MapChoice" mapOneOfSchema
    ([], [Ev.msgOpen "MapChoice", Ev.mapEntries "int64", Ev.oneofOpen "one_of",
      Ev.oneofField "string" "choice_1" 1, Ev.oneofClose, Ev.msgClose]) (by decide)
  simpa using h

/-- Claim C2 as amended: when a pure map shape's value type needs
synthesis, the value message is emitted eagerly at the moment the entries
field is produced, so its block appears *inside* the enclosing message's
still-open block, immediately before the entries line; every deferred
synthesized message appears after the enclosing block's closing line
(drained from the queue). -/
theorem claim_C2_amended :
    ∀ (cfg : Cfg) (reg : Registry) (fuel : Nat) (vis : List String)
      (name : String) (s : Schema) (out : List String × List Ev) (ap : Schema)
      (vt nm : String) (sch : Schema),
      emitMessage cfg reg (fuel + 2) vis name s = some out →
      s.addlProps = some ap →
      (mergeAllOf reg s).1 = [] →
      fieldType reg (fuel + 1) "value" ap = some (vt, some (nm, sch)) →
      ∃ (v' : List String) (innerEvs mid rest : List Ev),
        emitSchema cfg reg fuel vis nm sch = some (v', innerEvs) ∧
        out.2 = Ev.msgOpen (normalizeMessage name) ::
          innerEvs ++ Ev.mapEntries vt :: mid ++ Ev.msgClose :: rest ∧
        ∃ q, drainQueue cfg reg (fuel + 1) v' q = some (out.1, rest) := by
  intro cfg reg fuel vis name s out ap vt nm sch h hap hm hft
  simp only [emitMessage] at h
  split at h
  · exact absurd h (by simp)
  rename_i o1 propEvs toEmit1 fn1 hprops
  split at h
  · exact absurd h (by simp)
  rename_i o2 mapEvs visited1 hmap
  split at h
  · exact absurd h (by simp)
  rename_i o3 oneofEvs toEmit2 fn2 honeof
  split at h
  · exact absurd h (by simp)
  rename_i o4 anyofEvs toEmit3 fn3 hanyof
  split at h
  · exact absurd h (by simp)
  rename_i o5 visited2 deferEvs hdrain
  simp only [Option.some.injEq] at h
  subst h
  rw [hm] at hprops
  simp only [List.map_nil, List.insertionSort, ite_self, propsLoop,
    Option.some.injEq, Prod.mk.injEq] at hprops
  obtain ⟨hpe, hte, hfn⟩ := hprops
  subst hpe
  subst hte
  subst hfn
  rw [hm] at hmap
  simp only [mapPart, hap, List.isEmpty_nil, if_true, hft] at hmap
  split at hmap
  · exact absurd hmap (by simp)
  rename_i o6 v' innerEvs hinner
  simp only [Option.some.injEq, Prod.mk.injEq] at hmap
  obtain ⟨hme, hv1⟩ := hmap
  subst hme
  subst hv1
  refine ⟨v', innerEvs, oneofEvs ++ anyofEvs, deferEvs, hinner, ?_, toEmit3, hdrain⟩
  simp

/-- Witness for the amended C2 at the concrete map schema `fooMapSchema`. -/
theorem claim_C2_amended_witness :
    ∃ (v' : List String) (innerEvs mid rest : List Ev),
      emitSchema ⟨true, "oneof", false⟩ [("Foo", fooMapSchema)] 8 [] "Value" valueObj =
        some (v', innerEvs) ∧
      (["Value"],
        [Ev.msgOpen "Foo", Ev.msgOpen "Value", Ev.field false "string" "a" 1 "",
         Ev.msgClose, Ev.mapEntries "Value", Ev.msgClose]).2 =
        Ev.msgOpen (normalizeMessage "Foo") ::
          innerEvs ++ Ev.mapEntries "Value" :: mid ++ Ev.msgClose :: rest ∧
      ∃ q, drainQueue ⟨true, "oneof", false⟩ [("Foo", fooMapSchema)] 9 v' q =
        some ((["Value"],
          [Ev.msgOpen "Foo", Ev.msgOpen "Value", Ev.field false "string" "a" 1 "",
           Ev.msgClose, Ev.mapEntries "Value", Ev.msgClose]).1, rest) :=
  claim_C2_amended ⟨true, "oneof", false⟩ [("Foo", fooMapSchema)] 8 [] "Foo"
    fooMapSchema
    (["Value"],
      [Ev.msgOpen "Foo", Ev.msgOpen "Value", Ev.field false "string" "a" 1 "",
       Ev.msgClose, Ev.mapEntries "Value", Ev.msgClose])
    valueObj "Value" "Value" valueObj (by decide) rfl rfl rfl

/-- Claim C4 as amended: every *deferred* synthesized type (from a
property, a oneOf branch, an anyOf branch, or the anyOf-repeat field) is
queued under the enclosing message's normalized name combined with the
field- or branch-derived local name — all queueing goes through
`queueNested` — but the *eagerly emitted map-value* message is emitted
under the bare local name from the synthesis request, with no parent
prefix. -/
theorem claim_C4_amended :
    (∀ (visited : List String) (msgName : String)
      (toEmit : List (String × Schema)) (pt0 : String)
      (nested : Option (String × Schema)),
      ∀ p ∈ (queueNested visited msgName toEmit pt0 nested).2,
        p ∈ toEmit ∨
          ∃ base sch, p = (normalizeMessage (msgName ++ "_" ++ base), sch)) ∧
    (∀ (reg : Registry) (fuel : Nat) (cfg : Cfg) (visited : List String)
      (msgName : String) (props : List (String × Schema)) (names : List String)
      (fieldNum : Nat) (toEmit : List (String × Schema)) (evs : List Ev)
      (te : List (String × Schema)) (fn : Nat),
      propsLoop reg fuel cfg visited msgName props names fieldNum toEmit =
        some (evs, te, fn) →
      ∀ p ∈ te, p ∈ toEmit ∨
        ∃ base sch, p = (normalizeMessage (msgName ++ "_" ++ base), sch)) ∧
    (∀ (reg : Registry) (fuel : Nat) (visited : List String) (msgName : String)
      (stem : String) (branches : List Schema) (idx fieldNum : Nat)
      (toEmit : List (String × Schema)) (evs : List Ev)
      (te : List (String × Schema)) (fn : Nat),
      branchLoop reg fuel visited msgName stem branches idx fieldNum toEmit =
        some (evs, te, fn) →
      ∀ p ∈ te, p ∈ toEmit ∨
        ∃ base sch, p = (normalizeMessage (msgName ++ "_" ++ base), sch)) ∧
    (∀ (cfg : Cfg) (reg : Registry) (fuel : Nat) (vis : List String) (s : Schema)
      (mergedProps : List (String × Schema)) (ap : Schema) (vt nm : String)
      (sch : Schema) (out : List Ev × List String),
      mapPart cfg reg (fuel + 1) vis s mergedProps = some out →
      s.addlProps = some ap →
      mergedProps = [] →
      fieldType reg (fuel + 1) "value" ap = some (vt, some (nm, sch)) →
      ∃ innerEvs, emitSchema cfg reg fuel vis nm sch = some (out.2, innerEvs) ∧
        out.1 = innerEvs ++ [Ev.mapEntries vt]) := by
  refine ⟨queueNested_mem, ?_, ?_, ?_⟩
  · intro reg fuel cfg visited msgName props names fieldNum toEmit evs te fn h
    exact (propsLoop_spec reg fuel cfg visited msgName props names fieldNum
      toEmit evs te fn h).2.2.2
  · intro reg fuel visited msgName stem branches idx fieldNum toEmit evs te fn h
    exact (branchLoop_spec reg fuel visited msgName stem branches idx fieldNum
      toEmit evs te fn h).2.2.2
  · intro cfg reg fuel vis s mergedProps ap vt nm sch out h hap hm hft
    subst hm
    simp only [mapPart, hap, List.isEmpty_nil, if_true, hft] at h
    split at h
    · exact absurd h (by simp)
    rename_i o v' innerEvs hinner
    simp only [Option.some.injEq] at h
    subst h
    exact ⟨innerEvs, hinner, rfl⟩

/-- Witness for the amended C4: a queued entry is parent-prefixed
(`FooValue` for base `Value` under `Foo`), and the concrete eager
map-value emission of `fooMapSchema` uses the bare name `Value`. -/
theorem claim_C4_amended_witness :
    (("FooValue", valueObj) ∈ ([] : List (String × Schema)) ∨
      ∃ base sch,
        (("FooValue", valueObj) : String × Schema) =
          (normalizeMessage ("Foo" ++ "_" ++ base), sch)) ∧
    (∃ innerEvs,
      emitSchema ⟨true, "oneof", false⟩ [("Foo", fooMapSchema)] 8 [] "Value" valueObj =
        some ((["Value"],
          [Ev.msgOpen "Foo", Ev.msgOpen "Value", Ev.field false "string" "a" 1 "",
           Ev.msgClose, Ev.mapEntries "Value", Ev.msgClose] ++ []).1, innerEvs) ∧
      ([Ev.msgOpen "Value", Ev.field false "string" "a" 1 "", Ev.msgClose,
        Ev.mapEntries "Value"] : List Ev) = innerEvs ++ [Ev.mapEntries "Value"]) := by
  constructor
  · apply claim_C4_amended.1 [] "Foo" [] "t" (some ("Value", valueObj))
    rw [show (queueNested [] "Foo" [] "t" (some ("Value", valueObj))).2 =
      [("FooValue", valueObj)] from rfl]
    exact List.mem_singleton.mpr rfl
  · have h := claim_C4_amended.2.2.2 ⟨true, "oneof", false⟩
      [("Foo", fooMapSchema)] 7 [] fooMapSchema [] valueObj "Value" "Value" valueObj
      ([Ev.msgOpen "Value", Ev.field false "string" "a" 1 "", Ev.msgClose,
        Ev.mapEntries "Value"], ["Value"])
      (by decide) rfl rfl rfl
    obtain ⟨innerEvs, h1, h2⟩ := h
    exact ⟨innerEvs, by simpa using h1, h2⟩
